import Mathlib

/-! Receive side of the multiplexed serial transport

A shallow embedding of `src/drivers/bluetooth21/io_recv.hpp`: the receive state
(`RxState`), the demultiplexing driver (`process_serial_input`) and the channel
readers (`read_channel_raw`, `read_service_channel`, `drain`).

The header uses three collaborators that are declared elsewhere:

* `RxBuffer< 256 >` and its free functions (`buffer_rx.hpp`),
* the framing functions of `HostProtocol::Parser` (`host_protocol.hpp`), selected
  by the `Protocol tag` template argument,
* the device `read`.

The framing functions are a parameter of every definition (`Protocol`); the byte
buffer and the device read are modelled from the specification.

Iterators are positions in the storage of a buffer (natural numbers), so that an
iterator obtained before an `erase_begin` still denotes the same byte afterwards,
as it does for the pointers of the source.
-/

namespace BT

/-- One octet of the stream (`value_type` of the buffers). -/
abbrev Byte := Fin 256

/-- Number of values of `size_t` on the 32-bit target. -/
def SIZE_MOD : Nat := 2 ^ 32

/-- Value of `ENOMEM` in `errno.h`. -/
def ENOMEM : Nat := 12

/-- Value of `EAGAIN` in `errno.h`. -/
def EAGAIN : Nat := 11

/-- The `size_t` value of the expression `-n` (unsigned negation wraps). -/
def neg_size_t (n : Nat) : Nat := (SIZE_MOD - n % SIZE_MOD) % SIZE_MOD

/-- The `size_t` value of the difference `x - y` of two `size_t` values (unsigned
subtraction wraps below zero). -/
def sub_size_t (x y : Nat) : Nat := (x % SIZE_MOD + SIZE_MOD - y % SIZE_MOD) % SIZE_MOD

/-- Conversion of a `size_t` value to the signed `ssize_t` a reader returns. -/
def to_ssize_t (n : Nat) : Int :=
  if n % SIZE_MOD < SIZE_MOD / 2 then ((n % SIZE_MOD : Nat) : Int)
  else ((n % SIZE_MOD : Nat) : Int) - (SIZE_MOD : Int)

/-- Modelled from the spec: `RxBuffer< 256 >` of `buffer_rx.hpp`, the Circular Byte
Buffer of the data model. `content` is the logical content, oldest byte first;
`front` is the storage position of its first byte, that is the number of cells
that `erase_begin` released and `pack` has not reclaimed yet. -/
structure RxBuffer where
  front : Nat
  content : List Byte
deriving DecidableEq, Repr

/-- Modelled from the spec: `capacity`, the fixed capacity C = 256 of a buffer. -/
def capacity (_b : RxBuffer) : Nat := 256

/-- Modelled from the spec: `size`, the number of buffered bytes. -/
def size (b : RxBuffer) : Nat := b.content.length

/-- Modelled from the spec: `empty`, whether no byte is buffered. -/
def empty (b : RxBuffer) : Bool := b.content.isEmpty

/-- Modelled from the spec: `cbegin`, the position of the oldest byte. -/
def cbegin (b : RxBuffer) : Nat := b.front

/-- Modelled from the spec: `cend`, the position after the newest byte. -/
def cend (b : RxBuffer) : Nat := b.front + size b

/-- Number of steps from iterator `a` to iterator `z`; the callers pass `a` not
after `z`. -/
def distance (a z : Nat) : Nat := z - a

/-- The bytes a buffer holds in the iterator range from `a` to `z` (what `copy`
and the framing functions read through the read-only view). -/
def bytes_between (b : RxBuffer) (a z : Nat) : List Byte :=
  (b.content.drop (distance (cbegin b) a)).take (distance a z)

/-- Modelled from the spec: `erase_begin`, `erase_front(n)`: remove the `n` oldest
bytes; the released cells stay in front of the content until `pack`. -/
def erase_begin (b : RxBuffer) (n : Nat) : RxBuffer :=
  { front := b.front + n, content := b.content.drop n }

/-- Modelled from the spec: `clear`, drop all content. -/
def clear (_b : RxBuffer) : RxBuffer :=
  { front := 0, content := [] }

/-- Modelled from the spec: `pack`, `compact()`: move the content to the start of
the storage without changing the logical content. -/
def pack (b : RxBuffer) : RxBuffer :=
  { front := 0, content := b.content }

/-- Modelled from the spec: `insert_end_unsafe`, `append_unchecked(bytes)`: append
at the tail, no capacity check. -/
def insert_end_unsafe (b : RxBuffer) (bytes : List Byte) : RxBuffer :=
  { front := b.front, content := b.content ++ bytes }

/-- Invariant of the data model for one buffer: the content lies inside the 256
cells of the storage (hence size at most C). -/
def RxBuffer.valid (b : RxBuffer) : Prop := cend b ≤ capacity b

instance (b : RxBuffer) : Decidable b.valid := by
  unfold RxBuffer.valid; infer_instance

/-- Framing functions of `HostProtocol::Parser` for one protocol tag. Each one
sees the bytes of the range it is given and answers with offsets counted from the
start of that range. -/
structure Protocol where
  find_next_packet : List Byte → Nat × Nat
  get_channel_number : List Byte → Nat
  get_packet_data_slice : List Byte → Nat × Nat
  find_next_packet_safe : List Byte → Nat × Nat

/-- Call `find_next_packet(tag, first, last)` on a buffer: a pair of iterators. -/
def find_next_packet (tag : Protocol) (b : RxBuffer) (first last : Nat) : Nat × Nat :=
  (first + (tag.find_next_packet (bytes_between b first last)).1,
   first + (tag.find_next_packet (bytes_between b first last)).2)

/-- Call `find_next_packet_safe(tag, first, last)` on a buffer: a pair of
iterators. -/
def find_next_packet_safe (tag : Protocol) (b : RxBuffer) (first last : Nat) : Nat × Nat :=
  (first + (tag.find_next_packet_safe (bytes_between b first last)).1,
   first + (tag.find_next_packet_safe (bytes_between b first last)).2)

/-- Call `get_channel_number(tag, first, last)` on a buffer. -/
def get_channel_number (tag : Protocol) (b : RxBuffer) (first last : Nat) : Nat :=
  tag.get_channel_number (bytes_between b first last)

/-- Call `get_packet_data_slice(tag, first, last)` on a buffer: a pair of
iterators. -/
def get_packet_data_slice (tag : Protocol) (b : RxBuffer) (first last : Nat) : Nat × Nat :=
  (first + (tag.get_packet_data_slice (bytes_between b first last)).1,
   first + (tag.get_packet_data_slice (bytes_between b first last)).2)

/-- Modelled from the spec: `mark(poll_mask, ch, value)` on `poll_notify_mask_t`
of `bt_types.hpp`, one bit per channel; a default-constructed mask is `0`. -/
def mark (poll_mask : Nat) (ch : Nat) (value : Bool) : Nat :=
  if value then poll_mask ||| (1 <<< ch) else poll_mask ^^^ (poll_mask &&& (1 <<< ch))

/-- What the one non-blocking read of a call finds at the device: bytes that are
available, or a failure with its `errno`. -/
inductive Device
  | data (bytes : List Byte)
  | failure (errno : Nat)
deriving DecidableEq, Repr

/-- Modelled from the spec: `read(d, buffer)`, one non-blocking read into the free
cells at the tail of the buffer. The result is the byte count, or `-1` on a
failure, which leaves the buffer as it was. -/
def read (d : Device) (b : RxBuffer) : Int × RxBuffer :=
  match d with
  | Device.data bytes =>
    (((bytes.take (capacity b - cend b)).length : Nat),
      insert_end_unsafe b (bytes.take (capacity b - cend b)))
  | Device.failure _ => (-1, b)

/-- The `errno` the read leaves behind (`0` when it did not fail). -/
def errno_of (d : Device) : Nat :=
  match d with
  | Device.data _ => 0
  | Device.failure e => e

/-- The receive state: the device buffer and the eight channel buffers. -/
structure RxState where
  device_buffer : RxBuffer
  channel_buffer : Fin 8 → RxBuffer

/-- Invariant of the data model for the receive state. -/
def RxState.valid (rx : RxState) : Prop :=
  rx.device_buffer.valid ∧ ∀ i, (rx.channel_buffer i).valid

/-- Ways in which a run of the model leaves the defined behaviour of the source. -/
inductive Fault
  | out_of_fuel
  | channel_out_of_range
deriving DecidableEq, Repr

/-- Result of one pass through the body of the `while` loop. -/
inductive Step
  | stop (rx : RxState)
  | next (rx : RxState) (poll_mask : Nat)
  | fault (f : Fault)

/-- Body of the `while` loop of `process_serial_input` (lines 46 to 84): `stop` is
the `break`, `next` the end of the body. Indexing `channel_buffer` outside
`0..7` is undefined in the source and a fault here. -/
def loop_body (tag : Protocol) (rx : RxState) (poll_mask : Nat) : Step :=
  let r := find_next_packet tag rx.device_buffer
    (cbegin rx.device_buffer) (cend rx.device_buffer)
  let first := r.1
  let last := r.2
  let dev1 := erase_begin rx.device_buffer (distance (cbegin rx.device_buffer) first)
  if first = last then
    Step.stop { rx with device_buffer := dev1 }
  else
    let ch := get_channel_number tag dev1 first last
    if hch : ch < 8 then
      let poll_mask1 := mark poll_mask ch true
      let ch_buf := rx.channel_buffer ⟨ch, hch⟩
      let s := get_packet_data_slice tag dev1 first last
      let data_first := s.1
      let data_last := s.2
      let data_size := distance data_first data_last
      let ch_buf1 :=
        if sub_size_t (capacity ch_buf) (size ch_buf) < data_size then clear ch_buf
        else pack ch_buf
      let ch_buf2 := insert_end_unsafe ch_buf1 (bytes_between dev1 data_first data_last)
      let dev2 := erase_begin dev1 (distance (cbegin dev1) last)
      Step.next
        { device_buffer := dev2
          channel_buffer := Function.update rx.channel_buffer ⟨ch, hch⟩ ch_buf2 }
        poll_mask1
    else
      Step.fault Fault.channel_out_of_range

/-- The `while (not empty(rx.device_buffer))` loop, with a bound on the number of
passes; running out of passes is the fault `out_of_fuel`. -/
def process_loop (tag : Protocol) : Nat → RxState → Nat → Except Fault (RxState × Nat)
  | 0, _, _ => Except.error Fault.out_of_fuel
  | fuel + 1, rx, poll_mask =>
    if empty rx.device_buffer then
      Except.ok (rx, poll_mask)
    else
      match loop_body tag rx poll_mask with
      | Step.stop rx1 => Except.ok (rx1, poll_mask)
      | Step.next rx1 poll_mask1 => process_loop tag fuel rx1 poll_mask1
      | Step.fault f => Except.error f

/-- Whether the call reports the read through `perror` (lines 41 and 42). -/
def reports_read_error (d : Device) (rx : RxState) : Bool :=
  decide ((read d rx.device_buffer).1 < 0) && decide (errno_of d ≠ EAGAIN)

/-- The driver `process_serial_input(tag, d, rx)`: the returned mask and the new
receive state. The loop gets one pass more than there are buffered bytes. -/
def process_serial_input (tag : Protocol) (d : Device) (rx : RxState) :
    Except Fault (Nat × RxState) :=
  let rx0 : RxState := { rx with device_buffer := (read d rx.device_buffer).2 }
  match process_loop tag (size rx0.device_buffer + 1) rx0 0 with
  | Except.ok (rx1, poll_mask) =>
    Except.ok (poll_mask, { rx1 with device_buffer := pack rx1.device_buffer })
  | Except.error f => Except.error f

/-- What a channel reader hands back: the returned count, the bytes written to the
destination, and the new receive state. -/
structure ReadResult where
  count : Int
  dest : List Byte
  rx : RxState

/-- The reader `read_channel_raw(rx, ch, buf, buf_size)`. -/
def read_channel_raw (rx : RxState) (ch : Fin 8) (buf_size : Nat) : ReadResult :=
  let rx_buf := rx.channel_buffer ch
  let h := min (size rx_buf) buf_size
  { count := to_ssize_t h
    dest := bytes_between rx_buf (cbegin rx_buf) (cbegin rx_buf + h)
    rx := { rx with channel_buffer := Function.update rx.channel_buffer ch (erase_begin rx_buf h) } }

/-- The reader `read_service_channel(tag, rx, buf, buf_size)`. -/
def read_service_channel (tag : Protocol) (rx : RxState) (buf_size : Nat) : ReadResult :=
  let rx_buf := rx.channel_buffer 0
  if empty rx_buf then
    { count := 0, dest := [], rx := rx }
  else
    let r := find_next_packet_safe tag rx_buf (cbegin rx_buf) (cend rx_buf)
    let first := r.1
    let last := r.2
    let s := distance first last
    if 0 < s then
      if buf_size < s then
        { count := to_ssize_t (neg_size_t ENOMEM), dest := [], rx := rx }
      else
        { count := to_ssize_t s
          dest := bytes_between rx_buf first last
          rx := { rx with
            channel_buffer := Function.update rx.channel_buffer 0 (erase_begin rx_buf s) } }
    else
      { count := to_ssize_t s, dest := [], rx := rx }

/-- The operation `drain(rx, ch)`. -/
def drain (rx : RxState) (ch : Fin 8) : RxState :=
  { rx with channel_buffer := Function.update rx.channel_buffer ch (clear (rx.channel_buffer ch)) }

/-- Logical content of a buffer, oldest byte first. -/
def view (b : RxBuffer) : List Byte := b.content

/-- The part of a byte sequence from offset `a` up to offset `z`. -/
def slice (l : List Byte) (a z : Nat) : List Byte := (l.drop a).take (z - a)

/-! ## The packets of one call

The loop is described by the packets the finder reports one after another on what
is left of the buffered bytes, and by the effect of each packet on its channel. -/

/-- The run of the finder over the buffered bytes `c`: `Extracts tag c pkts r` says
that the finder reports, one after another, the complete packets `pkts`, each a
non-empty range inside the bytes still buffered, and then either the bytes are used
up or it reports no complete packet and asks to resume at the start of `r`. -/
inductive Extracts (tag : Protocol) : List Byte → List (List Byte) → List Byte → Prop
  | used_up : Extracts tag [] [] []
  | no_packet (c : List Byte) (a : Nat) :
      c ≠ [] → tag.find_next_packet c = (a, a) → Extracts tag c [] (c.drop a)
  | packet (c : List Byte) (a b : Nat) (pkts : List (List Byte)) (r : List Byte) :
      tag.find_next_packet c = (a, b) → a < b → b ≤ c.length →
      Extracts tag (c.drop b) pkts r → Extracts tag c (slice c a b :: pkts) r

/-- The payload of a packet: the sub-range `get_packet_data_slice` answers. -/
def payload_of (tag : Protocol) (pkt : List Byte) : List Byte :=
  slice pkt (tag.get_packet_data_slice pkt).1 (tag.get_packet_data_slice pkt).2

/-- The payload range of a packet lies inside the packet. -/
def payload_inside (tag : Protocol) (pkt : List Byte) : Prop :=
  (tag.get_packet_data_slice pkt).1 ≤ (tag.get_packet_data_slice pkt).2
    ∧ (tag.get_packet_data_slice pkt).2 ≤ pkt.length

instance (tag : Protocol) (pkt : List Byte) : Decidable (payload_inside tag pkt) := by
  unfold payload_inside; infer_instance

/-- Lines 75 to 80 on one channel buffer: clear it when the payload `p` does not
fit in the free space, pack it otherwise, then append `p`. -/
def deliver (b : RxBuffer) (p : List Byte) : RxBuffer :=
  insert_end_unsafe
    (if sub_size_t (capacity b) (size b) < p.length then clear b else pack b) p

/-- The channel buffers after the payloads of the packets `pkts` were delivered in
order, each to the channel its packet names. -/
def route (tag : Protocol) : List (List Byte) → (Fin 8 → RxBuffer) → Fin 8 → RxBuffer
  | [], chans => chans
  | pkt :: rest, chans =>
    route tag rest
      (fun i => if i.val = tag.get_channel_number pkt
        then deliver (chans i) (payload_of tag pkt) else chans i)

/-- The mask after the packets `pkts` were marked in order, starting from `m`. -/
def mark_all (tag : Protocol) (pkts : List (List Byte)) (m : Nat) : Nat :=
  pkts.foldl (fun acc pkt => mark acc (tag.get_channel_number pkt) true) m

/-- The payloads of the packets of `pkts` that name channel `i`, concatenated in
the order of the packets. -/
def payloads_for (tag : Protocol) (i : Nat) : List (List Byte) → List Byte
  | [] => []
  | pkt :: rest =>
    if tag.get_channel_number pkt = i then payload_of tag pkt ++ payloads_for tag i rest
    else payloads_for tag i rest

/-! ## Bookkeeping for the loop: passes, skipped bytes, room for the append -/

/-- Lines 75 to 78: the channel buffer as it is handed to `insert_end_unsafe`,
cleared when the free space is smaller than `data_size`, packed otherwise. -/
def before_append (b : RxBuffer) (data_size : Nat) : RxBuffer :=
  if sub_size_t (capacity b) (size b) < data_size then clear b else pack b

/-- The number of passes of `process_loop` that reach the end of the body, that is
the number of packets the loop extracts. -/
def count_passes (tag : Protocol) : Nat → RxState → Nat → Nat
  | 0, _, _ => 0
  | fuel + 1, rx, poll_mask =>
    if empty rx.device_buffer then 0
    else
      match loop_body tag rx poll_mask with
      | Step.next rx1 poll_mask1 => count_passes tag fuel rx1 poll_mask1 + 1
      | Step.stop _ => 0
      | Step.fault _ => 0

/-- The states at the head of the `while` loop during a run that starts in `rx`
with mask `m`: the start, and what a completed pass leaves. -/
inductive Reaches (tag : Protocol) (rx : RxState) (m : Nat) : RxState → Nat → Prop
  | start : Reaches tag rx m rx m
  | pass (rx1 : RxState) (m1 : Nat) (rx2 : RxState) (m2 : Nat) :
      Reaches tag rx m rx1 m1 → empty rx1.device_buffer = false →
      loop_body tag rx1 m1 = Step.next rx2 m2 → Reaches tag rx m rx2 m2

/-- Every buffer of the receive state holds at most `capacity` bytes. -/
def RxState.within_capacity (rx : RxState) : Prop :=
  size rx.device_buffer ≤ capacity rx.device_buffer
    ∧ ∀ i, size (rx.channel_buffer i) ≤ capacity (rx.channel_buffer i)

/-- The finder answers positions inside the range it is given, the start not after
the end. -/
def finder_in_range (tag : Protocol) : Prop :=
  ∀ c : List Byte, c ≠ [] →
    (tag.find_next_packet c).1 ≤ (tag.find_next_packet c).2
      ∧ (tag.find_next_packet c).2 ≤ c.length

/-- The run of the finder with the bytes it skips: like `Extracts`, with in front
of every packet the number of bytes discarded before its start, and `g` the number
of bytes discarded by the last call, which reports no complete packet. -/
inductive Scans (tag : Protocol) : List Byte → List (Nat × List Byte) → Nat → List Byte → Prop
  | used_up : Scans tag [] [] 0 []
  | no_packet (c : List Byte) (a : Nat) :
      c ≠ [] → tag.find_next_packet c = (a, a) → a ≤ c.length →
      Scans tag c [] a (c.drop a)
  | packet (c : List Byte) (a b : Nat) (evs : List (Nat × List Byte)) (g : Nat)
      (r : List Byte) :
      tag.find_next_packet c = (a, b) → a < b → b ≤ c.length →
      Scans tag (c.drop b) evs g r → Scans tag c ((a, slice c a b) :: evs) g r

/-- What the loop leaves in the device buffer. `Retains tag c last r` says that the
loop, started on the buffered bytes `c`, ends with the bytes `r` buffered. It
follows the loop pass by pass: on no bytes it ends at once; when the finder answers
an empty range at offset `a` it erases `a` bytes and breaks; otherwise it erases up
to the start and then up to the end of the packet (for a start not after the end
that is `c.drop b`) and goes on. `last` is the last call of the finder when the
loop ends by the `break`: the bytes it was given and the offset it answered;
`none` when the loop ends because the bytes are used up. -/
inductive Retains (tag : Protocol) :
    List Byte → Option (List Byte × Nat) → List Byte → Prop
  | used_up : Retains tag [] none []
  | no_packet (c : List Byte) (a : Nat) :
      c ≠ [] → tag.find_next_packet c = (a, a) → Retains tag c (some (c, a)) (c.drop a)
  | packet (c : List Byte) (a b : Nat) (last : Option (List Byte × Nat)) (r : List Byte) :
      c ≠ [] → tag.find_next_packet c = (a, b) → a ≠ b →
      Retains tag ((c.drop a).drop (b - a)) last r → Retains tag c last r

/-- Bytes discarded in front of packet starts during a run. -/
def discarded_bytes (evs : List (Nat × List Byte)) (g : Nat) : Nat :=
  (evs.map (fun e => e.1)).sum + g

/-- Framing bytes of the extracted packets: packet length minus payload length. -/
def framing_bytes (tag : Protocol) (evs : List (Nat × List Byte)) : Nat :=
  (evs.map (fun e => e.2.length - (payload_of tag e.2).length)).sum

/-- Payload bytes handed to the channel buffers. -/
def payload_bytes (tag : Protocol) (evs : List (Nat × List Byte)) : Nat :=
  (evs.map (fun e => (payload_of tag e.2).length)).sum

/-! ## A small framing contract used to exercise the definitions

Outer packets are `0xAA, length, channel, payload`, where the length counts the
channel byte and the payload; inner messages of the service channel are
`0x55, length, body`. Bytes in front of the marker are skipped. -/

/-- Finder of the example framing: skip to the marker `mk`, then report the two
header bytes and the announced number of bytes when all of them are there. -/
def demo_find (mk : Byte) : List Byte → Nat × Nat
  | [] => (0, 0)
  | b :: rest =>
    if b = mk then
      match rest with
      | len :: tl => if len.val ≤ tl.length then (0, 2 + len.val) else (0, 0)
      | [] => (0, 0)
    else ((demo_find mk rest).1 + 1, (demo_find mk rest).2 + 1)

/-- Example framing contract. -/
def demo : Protocol where
  find_next_packet := demo_find 0xAA
  get_channel_number := fun pkt => (pkt.getD 2 0).val
  get_packet_data_slice := fun pkt => (min 3 pkt.length, pkt.length)
  find_next_packet_safe := demo_find 0x55

/-- The example framing contract with the channel byte reduced to `0..7`. -/
def demo8 : Protocol where
  find_next_packet := demo_find 0xAA
  get_channel_number := fun pkt => (pkt.getD 2 0).val % 8
  get_packet_data_slice := fun pkt => (min 3 pkt.length, pkt.length)
  find_next_packet_safe := demo_find 0x55

/-- A packed receive state with the given device content and channel contents. -/
def rx_with (dev : List Byte) (chan : Fin 8 → List Byte) : RxState :=
  { device_buffer := { front := 0, content := dev }
    channel_buffer := fun i => { front := 0, content := chan i } }

end BT


namespace BT

/-! ## Basic facts about the buffer and the integer conversions -/

@[simp] theorem view_erase_begin (b : RxBuffer) (n : Nat) :
    view (erase_begin b n) = (view b).drop n := rfl

@[simp] theorem view_clear (b : RxBuffer) : view (clear b) = [] := rfl

@[simp] theorem view_pack (b : RxBuffer) : view (pack b) = view b := rfl

@[simp] theorem view_after_insert (b : RxBuffer) (l : List Byte) :
    view ( insert_end_unsafe b l) = view b ++ l := rfl

@[simp] theorem size_eq_length (b : RxBuffer) : size b = (view b).length := rfl

theorem empty_iff (b : RxBuffer) : empty b = true ↔ view b = [] := by
  simp [empty, view, List.isEmpty_iff]

theorem bytes_between_all (b : RxBuffer) :
    bytes_between b (cbegin b) (cend b) = view b := by
  simp [bytes_between, distance, cend, cbegin, view]

theorem bytes_between_offsets (b : RxBuffer) (a z : Nat) :
    bytes_between b (cbegin b + a) (cbegin b + z) = slice (view b) a z := by
  simp only [bytes_between, distance, slice, view]
  rw [Nat.add_sub_cancel_left, Nat.add_sub_add_left]

theorem valid_length_le (b : RxBuffer) (h : b.valid) : (view b).length ≤ 256 := by
  unfold RxBuffer.valid cend capacity at h
  simp only [size_eq_length] at h
  omega

theorem to_ssize_t_small (n : Nat) (h : n ≤ 256) : to_ssize_t n = (n : Int) := by
  unfold to_ssize_t SIZE_MOD
  have h1 : n % 2 ^ 32 = n := Nat.mod_eq_of_lt (by omega)
  rw [h1, if_pos (by omega)]

theorem sub_size_t_small (x y : Nat) (hy : y ≤ x) (hx : x ≤ 256) :
    sub_size_t x y = x - y := by
  unfold sub_size_t SIZE_MOD
  rw [Nat.mod_eq_of_lt (by omega : x < 2 ^ 32), Nat.mod_eq_of_lt (by omega : y < 2 ^ 32)]
  rw [show x + 2 ^ 32 - y = (x - y) + 2 ^ 32 by omega, Nat.add_mod_right]
  exact Nat.mod_eq_of_lt (by omega)

theorem to_ssize_t_neg_ENOMEM : to_ssize_t (neg_size_t ENOMEM) = -12 := by
  decide

theorem slice_length (l : List Byte) (a z : Nat) (haz : a ≤ z) (hz : z ≤ l.length) :
    (slice l a z).length = z - a := by
  simp only [slice, List.length_take, List.length_drop]
  omega

theorem slice_zero (l : List Byte) (z : Nat) : slice l 0 z = l.take z := by
  simp [slice]

/-- A sub-range of a sub-range, read from the enclosing sequence. -/
theorem slice_slice (l : List Byte) (a z d1 d2 : Nat) (hd : d2 ≤ z - a) :
    slice (slice l a z) d1 d2 = (l.drop (a + d1)).take (d2 - d1) := by
  simp only [slice, List.drop_take, List.take_take, List.drop_drop]
  congr 1
  omega

/-! ## One pass of the loop, in terms of offsets into the logical content -/

theorem bytes_between_erased (b : RxBuffer) (a x z : Nat) :
    bytes_between (erase_begin b (distance (cbegin b) (cbegin b + a)))
      (cbegin b + a + x) (cbegin b + a + z) = slice ((view b).drop a) x z := by
  have h := bytes_between_offsets (erase_begin b a) x z
  simp only [distance, Nat.add_sub_cancel_left]
  simpa [cbegin, erase_begin] using h

theorem bytes_between_packet (b : RxBuffer) (a z : Nat) :
    bytes_between (erase_begin b (distance (cbegin b) (cbegin b + a)))
      (cbegin b + a) (cbegin b + z) = slice (view b) a z := by
  have h := bytes_between_erased b a 0 (z - a)
  simp only [Nat.add_zero] at h
  by_cases hz : a ≤ z
  · rw [show cbegin b + a + (z - a) = cbegin b + z by omega] at h
    rw [h]; simp [slice]
  · simp only [bytes_between, distance, slice]
    rw [show cbegin b + z - (cbegin b + a) = 0 by omega, show z - a = 0 by omega]
    simp

/-- The `break`: the finder answers an empty range at offset `a`. -/
theorem loop_body_stop (tag : Protocol) (rx : RxState) (m a : Nat)
    (hfind : tag.find_next_packet (view rx.device_buffer) = (a, a)) :
    loop_body tag rx m
      = Step.stop { rx with device_buffer := erase_begin rx.device_buffer a } := by
  simp [loop_body, find_next_packet, bytes_between_all, hfind, distance]

/-- A packet is extracted: the finder answers offsets `a`, `b`, the packet names
channel `ch` and its payload lies at offsets `d1`, `d2` of the packet. -/
theorem loop_body_next (tag : Protocol) (rx : RxState) (m a b d1 d2 : Nat) (ch : Fin 8)
    (hfind : tag.find_next_packet (view rx.device_buffer) = (a, b)) (hne : a ≠ b)
    (hch : tag.get_channel_number (slice (view rx.device_buffer) a b) = ch.val)
    (hdata : tag.get_packet_data_slice (slice (view rx.device_buffer) a b) = (d1, d2)) :
    loop_body tag rx m
      = Step.next
          { device_buffer := erase_begin (erase_begin rx.device_buffer a) (b - a)
            channel_buffer := Function.update rx.channel_buffer ch
              ( insert_end_unsafe
                (if sub_size_t 256 (size (rx.channel_buffer ch)) < d2 - d1
                  then clear (rx.channel_buffer ch) else pack (rx.channel_buffer ch))
                (slice ((view rx.device_buffer).drop a) d1 d2)) }
          (m ||| 1 <<< ch.val) := by
  have hlt : tag.get_channel_number (slice (view rx.device_buffer) a b) < 8 := by
    rw [hch]; exact ch.isLt
  have hfin : (⟨tag.get_channel_number (slice (view rx.device_buffer) a b), hlt⟩ : Fin 8) = ch :=
    Fin.ext hch
  simp only [loop_body, find_next_packet, bytes_between_all, hfind, get_channel_number,
    get_packet_data_slice, bytes_between_packet, hdata, bytes_between_erased, mark,
    Nat.add_right_inj, if_neg hne, dif_pos hlt, hfin, if_true, capacity]
  simp [distance, erase_begin, cbegin, Nat.add_sub_cancel_left, Nat.add_sub_add_left, hch]

/-- The packet names a channel outside `0..7`. -/
theorem loop_body_fault (tag : Protocol) (rx : RxState) (m a b : Nat)
    (hfind : tag.find_next_packet (view rx.device_buffer) = (a, b)) (hne : a ≠ b)
    (hch : ¬ tag.get_channel_number (slice (view rx.device_buffer) a b) < 8) :
    loop_body tag rx m = Step.fault Fault.channel_out_of_range := by
  simp only [loop_body, find_next_packet, bytes_between_all, hfind, get_channel_number,
    bytes_between_packet, Nat.add_right_inj, if_neg hne, dif_neg hch]

end BT

namespace BT

/-! ## The whole loop -/

theorem payload_of_eq (tag : Protocol) (c : List Byte) (a b : Nat)
    (h : payload_inside tag (slice c a b)) (hab : a ≤ b) (hb : b ≤ c.length) :
    slice (c.drop a) (tag.get_packet_data_slice (slice c a b)).1
        (tag.get_packet_data_slice (slice c a b)).2
      = payload_of tag (slice c a b)
    ∧ (payload_of tag (slice c a b)).length
      = (tag.get_packet_data_slice (slice c a b)).2
        - (tag.get_packet_data_slice (slice c a b)).1 := by
  obtain ⟨h1, h2⟩ := h
  have hl := slice_length c a b hab hb
  constructor
  · unfold payload_of
    rw [slice_slice c a b _ _ (by omega)]
    simp [slice, List.drop_drop, Nat.add_comm]
  · exact slice_length _ _ _ h1 h2

theorem mark_all_cons (tag : Protocol) (pkt : List Byte) (pkts : List (List Byte)) (m : Nat) :
    mark_all tag (pkt :: pkts) m
      = mark_all tag pkts (m ||| 1 <<< tag.get_channel_number pkt) := by
  simp [mark_all, mark]

/-- The loop on a buffer whose bytes the finder cuts into the packets `pkts` and
the rest `r`: with more passes than buffered bytes it ends, the device buffer
holds `r`, the mask is marked for every packet, and, when every payload range lies
inside its packet, the channel buffers are those of `route`. -/
theorem process_loop_run (tag : Protocol) (c : List Byte) (pkts : List (List Byte))
    (r : List Byte) (hx : Extracts tag c pkts r) :
    ∀ (fuel : Nat) (rx : RxState) (m : Nat), view rx.device_buffer = c → c.length < fuel →
      (∀ pkt ∈ pkts, tag.get_channel_number pkt < 8) →
      ∃ rx1, process_loop tag fuel rx m = Except.ok (rx1, mark_all tag pkts m)
        ∧ view rx1.device_buffer = r
        ∧ ((∀ pkt ∈ pkts, payload_inside tag pkt) →
            rx1.channel_buffer = route tag pkts rx.channel_buffer) := by
  induction hx with
  | used_up =>
    intro fuel rx m hc hfuel _
    obtain ⟨k, rfl⟩ : ∃ k, fuel = k + 1 := ⟨fuel - 1, by omega⟩
    refine ⟨rx, ?_, hc, fun _ => rfl⟩
    simp [process_loop, (empty_iff _).2 hc, mark_all]
  | no_packet c a hne hfind =>
    intro fuel rx m hc hfuel _
    obtain ⟨k, rfl⟩ : ∃ k, fuel = k + 1 := ⟨fuel - 1, by omega⟩
    have hemp : empty rx.device_buffer = false := by
      cases h : empty rx.device_buffer
      · rfl
      · exact absurd (hc ▸ (empty_iff _).1 h) hne
    refine ⟨{ rx with device_buffer := erase_begin rx.device_buffer a }, ?_, ?_, fun _ => rfl⟩
    · simp [process_loop, hemp, loop_body_stop tag rx m a (hc ▸ hfind), mark_all]
    · simp [hc]
  | packet c a b pkts r hfind hab hb _ ih =>
    intro fuel rx m hc hfuel hch
    obtain ⟨k, rfl⟩ : ∃ k, fuel = k + 1 := ⟨fuel - 1, by omega⟩
    have hne : c ≠ [] := by
      intro h; rw [h] at hb; simp at hb; omega
    have hemp : empty rx.device_buffer = false := by
      cases h : empty rx.device_buffer
      · rfl
      · exact absurd (hc ▸ (empty_iff _).1 h) hne
    have hlt := hch (slice c a b) (List.mem_cons_self _ _)
    have hstep := loop_body_next tag rx m a b _ _ ⟨_, hlt⟩ (hc ▸ hfind) (Nat.ne_of_lt hab)
      (by rw [hc]) (by rw [hc])
    generalize hrx2 : ({ device_buffer := erase_begin (erase_begin rx.device_buffer a) (b - a)
                         channel_buffer := Function.update rx.channel_buffer
                          ⟨tag.get_channel_number (slice c a b), hlt⟩
                          ( insert_end_unsafe
                            (if sub_size_t 256
                                (size (rx.channel_buffer ⟨tag.get_channel_number (slice c a b), hlt⟩))
                                < (tag.get_packet_data_slice (slice c a b)).2
                                  - (tag.get_packet_data_slice (slice c a b)).1
                              then clear (rx.channel_buffer ⟨tag.get_channel_number (slice c a b), hlt⟩)
                              else pack (rx.channel_buffer ⟨tag.get_channel_number (slice c a b), hlt⟩))
                            (slice ((view rx.device_buffer).drop a)
                              (tag.get_packet_data_slice (slice c a b)).1
                              (tag.get_packet_data_slice (slice c a b)).2)) } : RxState) = rx2
      at hstep
    have hdev2 : view rx2.device_buffer = c.drop b := by
      rw [← hrx2]
      simp only [view_erase_begin, hc, List.drop_drop]
      congr 1; omega
    obtain ⟨rx1, hrun, hdev, hchan⟩ := ih k rx2
      (m ||| 1 <<< tag.get_channel_number (slice c a b)) hdev2
      (by simp only [List.length_drop]; omega)
      (fun pkt hp => hch pkt (List.mem_cons_of_mem _ hp))
    refine ⟨rx1, ?_, hdev, ?_⟩
    · rw [mark_all_cons, ← hrun]
      simp [process_loop, hemp, hstep]
    · intro hin
      rw [hchan (fun pkt hp => hin pkt (List.mem_cons_of_mem _ hp))]
      have hpay := payload_of_eq tag c a b (hin _ (List.mem_cons_self _ _))
        (Nat.le_of_lt hab) hb
      have hfun : rx2.channel_buffer
          = (fun i : Fin 8 => if i.val = tag.get_channel_number (slice c a b)
              then deliver (rx.channel_buffer i) (payload_of tag (slice c a b))
              else rx.channel_buffer i) := by
        rw [← hrx2]
        funext i
        show Function.update rx.channel_buffer _ _ i = _
        by_cases hi : i.val = tag.get_channel_number (slice c a b)
        · have hi2 : i = ⟨_, hlt⟩ := Fin.ext hi
          rw [if_pos hi, hi2, Function.update_same, deliver, hpay.2, hc, hpay.1]
          rfl
        · have hi2 : i ≠ ⟨_, hlt⟩ := fun h => hi (by rw [h])
          rw [if_neg hi, Function.update_noteq hi2]
      rw [hfun]
      rfl

end BT

namespace BT

/-! ## The driver in terms of the packets of the call -/

/-- The driver on a call whose buffered bytes (after the read) the finder cuts into
the packets `pkts` and the rest `r`. -/
theorem process_serial_input_run (tag : Protocol) (d : Device) (rx : RxState)
    (pkts : List (List Byte)) (r : List Byte)
    (hx : Extracts tag (view (read d rx.device_buffer).2) pkts r)
    (hch : ∀ pkt ∈ pkts, tag.get_channel_number pkt < 8) :
    ∃ rx1, process_serial_input tag d rx = Except.ok (mark_all tag pkts 0, rx1)
      ∧ rx1.device_buffer = { front := 0, content := r }
      ∧ ((∀ pkt ∈ pkts, payload_inside tag pkt) →
          rx1.channel_buffer = route tag pkts rx.channel_buffer) := by
  obtain ⟨rx1, hrun, hdev, hchan⟩ := process_loop_run tag _ pkts r hx
    (size (read d rx.device_buffer).2 + 1)
    { rx with device_buffer := (read d rx.device_buffer).2 } 0 rfl
    (by simp only [size_eq_length]; omega) hch
  refine ⟨{ rx1 with device_buffer := pack rx1.device_buffer }, ?_, ?_, hchan⟩
  · simp only [process_serial_input, hrun]
  · show pack rx1.device_buffer = _
    simp only [pack]
    exact congrArg _ hdev

theorem process_serial_input_front (tag : Protocol) (d : Device) (rx rx1 : RxState) (m : Nat)
    (h : process_serial_input tag d rx = Except.ok (m, rx1)) :
    rx1.device_buffer.front = 0 := by
  unfold process_serial_input at h
  simp only at h
  split at h
  · simp only [Except.ok.injEq, Prod.mk.injEq] at h
    rw [← h.2]
    rfl
  · exact absurd h (by simp)

theorem testBit_mark_all (tag : Protocol) (pkts : List (List Byte)) (m i : Nat) :
    (mark_all tag pkts m).testBit i = true
      ↔ m.testBit i = true ∨ ∃ pkt ∈ pkts, tag.get_channel_number pkt = i := by
  induction pkts generalizing m with
  | nil => simp [mark_all]
  | cons pkt rest ih =>
    rw [mark_all_cons, ih, Nat.testBit_or, Nat.one_shiftLeft, Nat.testBit_two_pow]
    simp only [Bool.or_eq_true, decide_eq_true_eq, List.mem_cons, exists_eq_or_imp]
    tauto

theorem view_deliver_fits (b : RxBuffer) (p : List Byte)
    (h : (view b).length + p.length ≤ 256) : view (deliver b p) = view b ++ p := by
  unfold deliver
  rw [capacity, sub_size_t_small 256 _ (by simp only [size_eq_length]; omega) (le_refl _),
    if_neg (by simp only [size_eq_length]; omega)]
  rfl

theorem view_deliver_overflow (b : RxBuffer) (p : List Byte) (hb : (view b).length ≤ 256)
    (h : 256 < (view b).length + p.length) : view (deliver b p) = p := by
  unfold deliver
  rw [capacity, sub_size_t_small 256 _ (by simpa using hb) (le_refl _),
    if_pos (by simp only [size_eq_length]; omega)]
  rfl

/-- A channel no packet names keeps its buffer. -/
theorem route_untouched (tag : Protocol) (pkts : List (List Byte)) (chans : Fin 8 → RxBuffer)
    (i : Fin 8) (h : ∀ pkt ∈ pkts, tag.get_channel_number pkt ≠ i.val) :
    route tag pkts chans i = chans i := by
  induction pkts generalizing chans with
  | nil => rfl
  | cons pkt rest ih =>
    rw [route, ih _ (fun p hp => h p (List.mem_cons_of_mem _ hp))]
    have := h pkt (List.mem_cons_self _ _)
    rw [if_neg (fun e => this e.symm)]

/-- Without overflow a channel receives the payloads addressed to it, in order. -/
theorem route_fits (tag : Protocol) (pkts : List (List Byte)) (chans : Fin 8 → RxBuffer)
    (i : Fin 8) (h : (view (chans i)).length + (payloads_for tag i.val pkts).length ≤ 256) :
    view (route tag pkts chans i) = view (chans i) ++ payloads_for tag i.val pkts := by
  induction pkts generalizing chans with
  | nil => simp [route, payloads_for]
  | cons pkt rest ih =>
    rw [route]
    by_cases hi : tag.get_channel_number pkt = i.val
    · simp only [payloads_for, if_pos hi, List.length_append] at h ⊢
      have hd := view_deliver_fits (chans i) (payload_of tag pkt) (by omega)
      rw [ih]
      · simp only [if_pos hi.symm, hd, List.append_assoc]
      · simp only [if_pos hi.symm, hd, List.length_append]; omega
    · simp only [payloads_for, if_neg hi] at h ⊢
      have hi2 : ¬ i.val = tag.get_channel_number pkt := fun e => hi e.symm
      rw [ih]
      · simp only [if_neg hi2]
      · simp only [if_neg hi2]; exact h

theorem payloads_for_all (tag : Protocol) (i : Nat) (pkts : List (List Byte))
    (h : ∀ pkt ∈ pkts, tag.get_channel_number pkt = i) :
    payloads_for tag i pkts = (pkts.map (payload_of tag)).flatten := by
  induction pkts with
  | nil => rfl
  | cons pkt rest ih =>
    simp only [payloads_for, if_pos (h pkt (List.mem_cons_self _ _)), List.map_cons,
      List.flatten_cons]
    rw [ih (fun p hp => h p (List.mem_cons_of_mem _ hp))]

theorem read_channel_raw_count (rx : RxState) (ch : Fin 8) (n : Nat)
    (hlen : (view (rx.channel_buffer ch)).length ≤ 256) :
    (read_channel_raw rx ch n).count = ((min (size (rx.channel_buffer ch)) n : Nat) : Int) := by
  simp only [read_channel_raw]
  apply to_ssize_t_small
  simp only [size_eq_length]
  omega

theorem read_channel_raw_dest (rx : RxState) (ch : Fin 8) (n : Nat) :
    (read_channel_raw rx ch n).dest
      = (view (rx.channel_buffer ch)).take (min (size (rx.channel_buffer ch)) n) := by
  have h := bytes_between_offsets (rx.channel_buffer ch) 0 (min (size (rx.channel_buffer ch)) n)
  simp only [Nat.add_zero, slice_zero] at h
  simpa [read_channel_raw] using h

theorem read_channel_raw_rest (rx : RxState) (ch : Fin 8) (n : Nat) :
    view ((read_channel_raw rx ch n).rx.channel_buffer ch)
      = (view (rx.channel_buffer ch)).drop (min (size (rx.channel_buffer ch)) n) := by
  simp [read_channel_raw]

/-- The service reader on a non-empty channel 0, in terms of the offsets `a`, `b`
that `find_next_packet_safe` answers for its content. -/
theorem read_service_channel_eq (tag : Protocol) (rx : RxState) (n a b : Nat)
    (hne : view (rx.channel_buffer 0) ≠ [])
    (hfind : tag.find_next_packet_safe (view (rx.channel_buffer 0)) = (a, b)) :
    read_service_channel tag rx n
      = if 0 < b - a then
          if n < b - a then
            { count := to_ssize_t (neg_size_t ENOMEM), dest := [], rx := rx }
          else
            { count := to_ssize_t (b - a)
              dest := slice (view (rx.channel_buffer 0)) a b
              rx := { rx with channel_buffer :=
                Function.update rx.channel_buffer 0 (erase_begin (rx.channel_buffer 0) (b - a)) } }
        else { count := to_ssize_t (b - a), dest := [], rx := rx } := by
  have hemp : empty (rx.channel_buffer 0) = false := by
    cases h : empty (rx.channel_buffer 0)
    · rfl
    · exact absurd ((empty_iff _).1 h) hne
  simp only [read_service_channel, hemp, find_next_packet_safe, bytes_between_all, hfind,
    bytes_between_offsets, distance, Nat.add_sub_add_left]
  rfl

theorem read_service_channel_of_empty (tag : Protocol) (rx : RxState) (n : Nat)
    (he : view (rx.channel_buffer 0) = []) :
    read_service_channel tag rx n = { count := 0, dest := [], rx := rx } := by
  simp [read_service_channel, (empty_iff _).2 he]

/-- Skipped bytes `G` followed by one packet `P` whose bounds the finder reports. -/
theorem extracts_single (tag : Protocol) (G P : List Byte) (hP : P ≠ [])
    (hfind : tag.find_next_packet (G ++ P) = (G.length, G.length + P.length)) :
    Extracts tag (G ++ P) [P] [] := by
  have hslice : slice (G ++ P) G.length (G.length + P.length) = P := by
    simp [slice]
  have hlen : 0 < P.length := List.length_pos.2 hP
  have h := Extracts.packet (G ++ P) G.length (G.length + P.length) [] [] hfind
    (by omega) (by simp) (by simpa using Extracts.used_up)
  rwa [hslice] at h

/-- A successful service read: the message is copied and as many bytes as it is
long are erased from the front of channel 0. -/
theorem read_service_channel_delivers (tag : Protocol) (rx : RxState) (n a b : Nat)
    (hlen : (view (rx.channel_buffer 0)).length ≤ 256)
    (hfind : tag.find_next_packet_safe (view (rx.channel_buffer 0)) = (a, b))
    (hab : a < b) (hb : b ≤ (view (rx.channel_buffer 0)).length) (hn : b - a ≤ n) :
    (read_service_channel tag rx n).count = ((b - a : Nat) : Int)
    ∧ (read_service_channel tag rx n).dest = slice (view (rx.channel_buffer 0)) a b
    ∧ view ((read_service_channel tag rx n).rx.channel_buffer 0)
        = (view (rx.channel_buffer 0)).drop (b - a) := by
  have hne : view (rx.channel_buffer 0) ≠ [] := by
    intro h; rw [h] at hb; simp at hb; omega
  have h := read_service_channel_eq tag rx n a b hne hfind
  rw [if_pos (by omega), if_neg (by omega)] at h
  rw [h]
  refine ⟨to_ssize_t_small _ (by omega), rfl, ?_⟩
  simp

end BT

namespace BT

/-! ## Case analysis of one pass, decrease of the device buffer -/

/-- The three ways a pass can go, by the offsets the finder answers. -/
theorem loop_body_cases (tag : Protocol) (rx : RxState) (m : Nat) :
    ((tag.find_next_packet (view rx.device_buffer)).1
        = (tag.find_next_packet (view rx.device_buffer)).2
      ∧ loop_body tag rx m = Step.stop
          { rx with
            device_buffer := erase_begin rx.device_buffer
              (tag.find_next_packet (view rx.device_buffer)).1 })
    ∨ ((tag.find_next_packet (view rx.device_buffer)).1
        ≠ (tag.find_next_packet (view rx.device_buffer)).2
      ∧ ∃ ch : Fin 8,
        tag.get_channel_number (slice (view rx.device_buffer)
          (tag.find_next_packet (view rx.device_buffer)).1
          (tag.find_next_packet (view rx.device_buffer)).2) = ch.val
        ∧ ∃ d1 d2 : Nat,
          tag.get_packet_data_slice (slice (view rx.device_buffer)
            (tag.find_next_packet (view rx.device_buffer)).1
            (tag.find_next_packet (view rx.device_buffer)).2) = (d1, d2)
          ∧ loop_body tag rx m = Step.next
            { device_buffer := erase_begin
                (erase_begin rx.device_buffer (tag.find_next_packet (view rx.device_buffer)).1)
                ((tag.find_next_packet (view rx.device_buffer)).2
                  - (tag.find_next_packet (view rx.device_buffer)).1)
              channel_buffer := Function.update rx.channel_buffer ch
                ( insert_end_unsafe (before_append (rx.channel_buffer ch) (d2 - d1))
                  (slice ((view rx.device_buffer).drop
                    (tag.find_next_packet (view rx.device_buffer)).1) d1 d2)) }
            (m ||| 1 <<< ch.val))
    ∨ ((tag.find_next_packet (view rx.device_buffer)).1
        ≠ (tag.find_next_packet (view rx.device_buffer)).2
      ∧ loop_body tag rx m = Step.fault Fault.channel_out_of_range) := by
  obtain ⟨a, b, hf⟩ : ∃ a b, tag.find_next_packet (view rx.device_buffer) = (a, b) :=
    ⟨_, _, rfl⟩
  rw [hf]
  by_cases hab : a = b
  · left
    subst hab
    exact ⟨rfl, loop_body_stop tag rx m a hf⟩
  · right
    by_cases hch : tag.get_channel_number (slice (view rx.device_buffer) a b) < 8
    · left
      refine ⟨hab, ⟨_, hch⟩, rfl, _, _, rfl, ?_⟩
      exact loop_body_next tag rx m a b _ _ ⟨_, hch⟩ hf hab rfl rfl
    · right
      exact ⟨hab, loop_body_fault tag rx m a b hf hab hch⟩

theorem empty_eq_false (b : RxBuffer) (h : empty b = false) : view b ≠ [] := by
  intro he
  rw [(empty_iff b).2 he] at h
  exact absurd h (by simp)

/-- A completed pass removes from the device buffer the bytes up to the end of the
packet, at least one byte. -/
theorem loop_body_next_removes (tag : Protocol) (hfind : finder_in_range tag)
    (rx : RxState) (m : Nat) (rx1 : RxState) (m1 : Nat)
    (hne : view rx.device_buffer ≠ [])
    (hstep : loop_body tag rx m = Step.next rx1 m1) :
    view rx1.device_buffer
        = (view rx.device_buffer).drop (tag.find_next_packet (view rx.device_buffer)).2
    ∧ 1 ≤ (tag.find_next_packet (view rx.device_buffer)).2
    ∧ (tag.find_next_packet (view rx.device_buffer)).2 ≤ (view rx.device_buffer).length := by
  obtain ⟨h12, h2⟩ := hfind _ hne
  rcases loop_body_cases tag rx m with ⟨_, h⟩ | ⟨hab, _, _, _, _, _, h⟩ | ⟨_, h⟩
  · rw [h] at hstep; exact absurd hstep (by simp)
  · rw [h] at hstep
    simp only [Step.next.injEq] at hstep
    rw [← hstep.1]
    refine ⟨?_, by omega, h2⟩
    simp only [view_erase_begin, List.drop_drop]
    congr 1
    omega
  · rw [h] at hstep; exact absurd hstep (by simp)

/-- With more passes allowed than bytes buffered the loop does not run out of
passes. -/
theorem process_loop_enough_fuel (tag : Protocol) (hfind : finder_in_range tag) :
    ∀ (fuel : Nat) (rx : RxState) (m : Nat), (view rx.device_buffer).length < fuel →
      process_loop tag fuel rx m ≠ Except.error Fault.out_of_fuel := by
  intro fuel
  induction fuel with
  | zero => intro rx m h; omega
  | succ k ih =>
    intro rx m h
    rw [process_loop]
    cases he : empty rx.device_buffer
    · have hne := empty_eq_false _ he
      simp only [Bool.false_eq_true, if_false]
      cases hs : loop_body tag rx m with
      | stop rx1 => simp
      | next rx1 m1 =>
        obtain ⟨hv, h1, h2⟩ := loop_body_next_removes tag hfind rx m rx1 m1 hne hs
        apply ih
        rw [hv, List.length_drop]
        omega
      | fault f =>
        rcases loop_body_cases tag rx m with ⟨_, h⟩ | ⟨_, _, _, _, _, _, h⟩ | ⟨_, h⟩
        · rw [h] at hs; exact absurd hs (by simp)
        · rw [h] at hs; exact absurd hs (by simp)
        · rw [h] at hs
          simp only [Step.fault.injEq] at hs
          rw [← hs]
          simp
    · simp

theorem demo_find_in_range (mk : Byte) (c : List Byte) :
    (demo_find mk c).1 ≤ (demo_find mk c).2 ∧ (demo_find mk c).2 ≤ c.length := by
  induction c with
  | nil => simp [demo_find]
  | cons b rest ih =>
    unfold demo_find
    by_cases hb : b = mk
    · rw [if_pos hb]
      cases rest with
      | nil => simp
      | cons len tl =>
        by_cases hl : len.val ≤ tl.length
        · simp only [hl, if_true, List.length_cons]
          omega
        · simp only [hl, if_false, List.length_cons]
          omega
    · rw [if_neg hb]
      simp only [List.length_cons]
      omega

theorem demo_finder_in_range : finder_in_range demo := fun c _ =>
  demo_find_in_range 0xAA c

theorem demo8_finder_in_range : finder_in_range demo8 := fun c _ =>
  demo_find_in_range 0xAA c

/-- The result of the loop does not depend on the number of passes allowed, once
it exceeds the number of buffered bytes. -/
theorem process_loop_fuel_irrelevant (tag : Protocol) (hfind : finder_in_range tag) :
    ∀ (f1 f2 : Nat) (rx : RxState) (m : Nat),
      (view rx.device_buffer).length < f1 → (view rx.device_buffer).length < f2 →
      process_loop tag f1 rx m = process_loop tag f2 rx m := by
  intro f1
  induction f1 with
  | zero => intro f2 rx m h; omega
  | succ k ih =>
    intro f2 rx m h1 h2
    obtain ⟨k2, rfl⟩ : ∃ k2, f2 = k2 + 1 := ⟨f2 - 1, by omega⟩
    rw [process_loop, process_loop]
    cases he : empty rx.device_buffer
    · simp only [Bool.false_eq_true, if_false]
      cases hs : loop_body tag rx m with
      | stop rx1 => rfl
      | next rx1 m1 =>
        obtain ⟨hv, hb1, hb2⟩ := loop_body_next_removes tag hfind rx m rx1 m1
          (empty_eq_false _ he) hs
        simp only
        apply ih
        · rw [hv, List.length_drop]; omega
        · rw [hv, List.length_drop]; omega
      | fault f => rfl
    · rfl

/-! ## The states at the head of the loop -/

theorem reaches_head (tag : Protocol) (rx : RxState) (m : Nat) (rx2 : RxState) (m2 : Nat)
    (he : empty rx.device_buffer = false) (hs : loop_body tag rx m = Step.next rx2 m2)
    (rx3 : RxState) (m3 : Nat) (h : Reaches tag rx2 m2 rx3 m3) : Reaches tag rx m rx3 m3 := by
  induction h with
  | start => exact Reaches.pass rx m rx2 m2 Reaches.start he hs
  | pass ra ma rb mb _ hea hsa ih => exact Reaches.pass ra ma rb mb ih hea hsa

/-- How the loop ends: at a state at its head, either because the device buffer is
empty there or by the `break` of the pass that starts there. -/
theorem process_loop_exit (tag : Protocol) :
    ∀ (fuel : Nat) (rx : RxState) (m : Nat) (rx1 : RxState) (m1 : Nat),
      process_loop tag fuel rx m = Except.ok (rx1, m1) →
      (Reaches tag rx m rx1 m1 ∧ empty rx1.device_buffer = true)
      ∨ ∃ rx2, Reaches tag rx m rx2 m1 ∧ empty rx2.device_buffer = false
          ∧ loop_body tag rx2 m1 = Step.stop rx1 := by
  intro fuel
  induction fuel with
  | zero =>
    intro rx m rx1 m1 h
    simp [process_loop] at h
  | succ k ih =>
    intro rx m rx1 m1 h
    rw [process_loop] at h
    cases he : empty rx.device_buffer
    · simp only [he, Bool.false_eq_true, if_false] at h
      cases hs : loop_body tag rx m with
      | stop rx2 =>
        simp only [hs, Except.ok.injEq, Prod.mk.injEq] at h
        right
        refine ⟨rx, ?_, he, ?_⟩
        · rw [← h.2]; exact Reaches.start
        · rw [← h.2, ← h.1]; exact hs
      | next rx2 m2 =>
        simp only [hs] at h
        rcases ih rx2 m2 rx1 m1 h with ⟨hr, hemp⟩ | ⟨rx3, hr, hemp, hstop⟩
        · exact Or.inl ⟨reaches_head tag rx m rx2 m2 he hs _ _ hr, hemp⟩
        · exact Or.inr ⟨rx3, reaches_head tag rx m rx2 m2 he hs _ _ hr, hemp, hstop⟩
      | fault f =>
        simp [hs] at h
    · simp only [he, if_true, Except.ok.injEq, Prod.mk.injEq] at h
      left
      rw [← h.1, ← h.2]
      exact ⟨Reaches.start, he⟩

/-- What a completed pass does: the device buffer loses the bytes up to the end of
the packet, one channel buffer receives its append, one mask bit is set. -/
theorem loop_body_next_effect (tag : Protocol) (rx : RxState) (m : Nat) (rx1 : RxState)
    (m1 : Nat) (hs : loop_body tag rx m = Step.next rx1 m1) :
    ∃ (a b d1 d2 : Nat) (ch : Fin 8),
      tag.find_next_packet (view rx.device_buffer) = (a, b) ∧ a ≠ b
      ∧ tag.get_channel_number (slice (view rx.device_buffer) a b) = ch.val
      ∧ tag.get_packet_data_slice (slice (view rx.device_buffer) a b) = (d1, d2)
      ∧ rx1.device_buffer = erase_begin (erase_begin rx.device_buffer a) (b - a)
      ∧ rx1.channel_buffer = Function.update rx.channel_buffer ch
          ( insert_end_unsafe (before_append (rx.channel_buffer ch) (d2 - d1))
            (slice ((view rx.device_buffer).drop a) d1 d2))
      ∧ m1 = m ||| 1 <<< ch.val := by
  rcases loop_body_cases tag rx m with ⟨_, h⟩ | ⟨hab, ch, hch, d1, d2, hd, h⟩ | ⟨_, h⟩
  · rw [h] at hs; exact absurd hs (by simp)
  · rw [h] at hs
    simp only [Step.next.injEq] at hs
    refine ⟨_, _, d1, d2, ch, rfl, hab, hch, hd, ?_, ?_, hs.2.symm⟩
    · rw [← hs.1]
    · rw [← hs.1]
  · rw [h] at hs; exact absurd hs (by simp)

/-- What the `break` does: only the bytes in front of the answered position go. -/
theorem loop_body_stop_effect (tag : Protocol) (rx : RxState) (m : Nat) (rx1 : RxState)
    (hs : loop_body tag rx m = Step.stop rx1) :
    ∃ a : Nat, tag.find_next_packet (view rx.device_buffer) = (a, a)
      ∧ rx1.device_buffer = erase_begin rx.device_buffer a
      ∧ rx1.channel_buffer = rx.channel_buffer := by
  rcases loop_body_cases tag rx m with ⟨hab, h⟩ | ⟨_, _, _, _, _, _, h⟩ | ⟨_, h⟩
  · rw [h] at hs
    simp only [Step.stop.injEq] at hs
    refine ⟨_, Prod.ext rfl hab.symm, ?_, ?_⟩
    · rw [← hs]
    · rw [← hs]
  · rw [h] at hs; exact absurd hs (by simp)
  · rw [h] at hs; exact absurd hs (by simp)

theorem reaches_suffix (tag : Protocol) (rx : RxState) (m : Nat) (rx1 : RxState) (m1 : Nat)
    (h : Reaches tag rx m rx1 m1) : view rx1.device_buffer <:+ view rx.device_buffer := by
  induction h with
  | start => exact List.suffix_refl _
  | pass ra ma rb mb _ _ hs ih =>
    obtain ⟨a, b, d1, d2, ch, _, _, _, _, hdev, _, _⟩ := loop_body_next_effect tag ra ma rb mb hs
    rw [hdev]
    simp only [view_erase_begin]
    exact ((List.drop_suffix _ _).trans (List.drop_suffix _ _)).trans ih

theorem reaches_frame (tag : Protocol) (rx : RxState) (m : Nat) (rx1 : RxState) (m1 : Nat)
    (h : Reaches tag rx m rx1 m1) (i : Fin 8) :
    (m.testBit i.val = true → m1.testBit i.val = true)
    ∧ (m1.testBit i.val = false → rx1.channel_buffer i = rx.channel_buffer i) := by
  induction h with
  | start => exact ⟨id, fun _ => rfl⟩
  | pass ra ma rb mb _ _ hs ih =>
    obtain ⟨a, b, d1, d2, ch, _, _, _, _, _, hchan, hm⟩ := loop_body_next_effect tag ra ma rb mb hs
    have hbit : mb.testBit i.val = (ma.testBit i.val || decide (ch.val = i.val)) := by
      rw [hm, Nat.testBit_or, Nat.one_shiftLeft, Nat.testBit_two_pow]
    constructor
    · intro h0
      rw [hbit, ih.1 h0]
      rfl
    · intro h0
      rw [hbit, Bool.or_eq_false_iff] at h0
      have hne : i ≠ ch := by
        intro e
        rw [e] at h0
        simp at h0
      rw [hchan, Function.update_noteq hne]
      exact ih.2 h0.1

/-! ## The run with its skipped bytes -/

theorem scans_extracts (tag : Protocol) (c : List Byte) (evs : List (Nat × List Byte))
    (g : Nat) (r : List Byte) (h : Scans tag c evs g r) :
    Extracts tag c (evs.map Prod.snd) r := by
  induction h with
  | used_up => exact Extracts.used_up
  | no_packet c a hne hf _ => exact Extracts.no_packet c a hne hf
  | packet c a b evs g r hf hab hb _ ih => exact Extracts.packet c a b _ r hf hab hb ih

/-- A finder that answers inside the range cuts every byte sequence into a run. -/
theorem scans_exists (tag : Protocol) (hfind : finder_in_range tag) :
    ∀ (n : Nat) (c : List Byte), c.length ≤ n → ∃ evs g r, Scans tag c evs g r := by
  intro n
  induction n with
  | zero =>
    intro c hc
    have : c = [] := List.length_eq_zero.1 (by omega)
    subst this
    exact ⟨[], 0, [], Scans.used_up⟩
  | succ k ih =>
    intro c hc
    by_cases hne : c = []
    · subst hne
      exact ⟨[], 0, [], Scans.used_up⟩
    · obtain ⟨h12, h2⟩ := hfind c hne
      obtain ⟨a, b, hf⟩ : ∃ a b, tag.find_next_packet c = (a, b) := ⟨_, _, rfl⟩
      rw [hf] at h12 h2
      simp only at h12 h2
      by_cases hab : a = b
      · subst hab
        exact ⟨[], a, c.drop a, Scans.no_packet c a hne hf h2⟩
      · have hpos : 0 < c.length := List.length_pos.2 hne
        obtain ⟨evs, g, r, hx⟩ := ih (c.drop b) (by rw [List.length_drop]; omega)
        exact ⟨_, g, r, Scans.packet c a b evs g r hf (by omega) h2 hx⟩

/-- Every buffered byte is retained, discarded in front of a packet start, or part
of an extracted packet. -/
theorem scans_accounting (tag : Protocol) (c : List Byte) (evs : List (Nat × List Byte))
    (g : Nat) (r : List Byte) (h : Scans tag c evs g r) :
    c.length = r.length + discarded_bytes evs g + (evs.map (fun e => e.2.length)).sum := by
  induction h with
  | used_up => simp [discarded_bytes]
  | no_packet c a _ _ ha =>
    simp only [discarded_bytes, List.map_nil, List.sum_nil, List.length_drop]
    omega
  | packet c a b evs g r _ hab hb _ ih =>
    have hl := slice_length c a b (Nat.le_of_lt hab) hb
    simp only [discarded_bytes, List.map_cons, List.sum_cons, List.length_drop, hl] at ih ⊢
    omega

theorem payload_of_length_le (tag : Protocol) (pkt : List Byte) :
    (payload_of tag pkt).length ≤ pkt.length := by
  simp only [payload_of, slice, List.length_take, List.length_drop]
  omega

theorem framing_add_payload (tag : Protocol) (evs : List (Nat × List Byte)) :
    framing_bytes tag evs + payload_bytes tag evs = (evs.map (fun e => e.2.length)).sum := by
  induction evs with
  | nil => rfl
  | cons e rest ih =>
    have h := payload_of_length_le tag e.2
    simp only [framing_bytes, payload_bytes, List.map_cons, List.sum_cons] at ih ⊢
    omega

theorem view_deliver_suffix (b : RxBuffer) (p : List Byte) :
    view (deliver b p) <:+ view b ++ p := by
  unfold deliver
  split
  · exact List.suffix_append _ _
  · exact List.suffix_refl _

/-- A channel holds a tail of its previous content followed by the payloads
addressed to it, in the order of the packets. -/
theorem route_suffix (tag : Protocol) (pkts : List (List Byte)) (chans : Fin 8 → RxBuffer)
    (i : Fin 8) :
    view (route tag pkts chans i) <:+ view (chans i) ++ payloads_for tag i.val pkts := by
  induction pkts generalizing chans with
  | nil => simp [route, payloads_for]
  | cons pkt rest ih =>
    rw [route]
    refine (ih _).trans ?_
    by_cases hi : tag.get_channel_number pkt = i.val
    · simp only [payloads_for, if_pos hi, if_pos hi.symm]
      obtain ⟨t, ht⟩ := view_deliver_suffix (chans i) (payload_of tag pkt)
      refine ⟨t, ?_⟩
      rw [← List.append_assoc, ht, List.append_assoc]
    · have hi2 : ¬ i.val = tag.get_channel_number pkt := fun e => hi e.symm
      simp only [payloads_for, if_neg hi, if_neg hi2]
      exact List.suffix_refl _

/-- Each payload is addressed to exactly one of the eight channels. -/
theorem payloads_for_total (tag : Protocol) (evs : List (Nat × List Byte))
    (hch : ∀ e ∈ evs, tag.get_channel_number e.2 < 8) :
    (Finset.univ.sum fun i : Fin 8 => (payloads_for tag i.val (evs.map Prod.snd)).length)
      = payload_bytes tag evs := by
  induction evs with
  | nil => simp [payloads_for, payload_bytes]
  | cons e rest ih =>
    have hlt := hch e (List.mem_cons_self _ _)
    have hrest := ih (fun x hx => hch x (List.mem_cons_of_mem _ hx))
    have hsplit : ∀ i : Fin 8,
        (payloads_for tag i.val ((e :: rest).map Prod.snd)).length
          = (if (⟨_, hlt⟩ : Fin 8) = i then (payload_of tag e.2).length else 0)
            + (payloads_for tag i.val (rest.map Prod.snd)).length := by
      intro i
      simp only [List.map_cons, payloads_for]
      by_cases hi : tag.get_channel_number e.2 = i.val
      · rw [if_pos hi, if_pos (Fin.ext hi), List.length_append]
      · rw [if_neg hi, if_neg (fun h => hi (by rw [← h])), Nat.zero_add]
    simp only [hsplit, Finset.sum_add_distrib, Finset.sum_ite_eq, Finset.mem_univ, if_true,
      hrest]
    simp [payload_bytes]

/-! ## The driver: what a returned result comes from, and when it returns -/

theorem process_serial_input_ok (tag : Protocol) (d : Device) (rx : RxState) (mask : Nat)
    (rx1 : RxState) (h : process_serial_input tag d rx = Except.ok (mask, rx1)) :
    ∃ rxl, process_loop tag (size (read d rx.device_buffer).2 + 1)
        { rx with device_buffer := (read d rx.device_buffer).2 } 0 = Except.ok (rxl, mask)
      ∧ rx1.device_buffer = pack rxl.device_buffer
      ∧ rx1.channel_buffer = rxl.channel_buffer := by
  unfold process_serial_input at h
  simp only at h
  split at h
  · rename_i rxl m hl
    simp only [Except.ok.injEq, Prod.mk.injEq] at h
    refine ⟨rxl, ?_, ?_, ?_⟩
    · rw [← h.1]; exact hl
    · rw [← h.2]
    · rw [← h.2]
  · exact absurd h (by simp)

/-- With a finder that answers inside the range and channel numbers in `0..7` the
driver returns. -/
theorem process_serial_input_returns (tag : Protocol) (d : Device) (rx : RxState)
    (hfind : finder_in_range tag) (hch : ∀ pkt, tag.get_channel_number pkt < 8) :
    ∃ mask rx1, process_serial_input tag d rx = Except.ok (mask, rx1) := by
  obtain ⟨evs, g, r, hx⟩ := scans_exists tag hfind _ (view (read d rx.device_buffer).2)
    (le_refl _)
  obtain ⟨rx1, hrun, _, _⟩ := process_serial_input_run tag d rx _ r
    (scans_extracts tag _ evs g r hx) (fun pkt _ => hch pkt)
  exact ⟨_, rx1, hrun⟩

theorem view_read (d : Device) (b : RxBuffer) :
    ∃ fresh, view (read d b).2 = view b ++ fresh := by
  cases d with
  | data bytes => exact ⟨bytes.take (capacity b - cend b), rfl⟩
  | failure e => exact ⟨[], by simp [read]⟩

theorem read_failure_eq (e : Nat) (b : RxBuffer) :
    (read (Device.failure e) b).2 = (read (Device.data []) b).2 := by
  simp [read, insert_end_unsafe]

/-! ## Room for the unchecked append -/

theorem slice_length_le (l : List Byte) (a z : Nat) :
    (slice l a z).length ≤ z - a ∧ (slice l a z).length ≤ l.length := by
  simp only [slice, List.length_take, List.length_drop]
  omega

/-- After the clear or the pack the buffer starts at the first cell and has room
for `n` bytes, when `n` is at most the capacity. -/
theorem before_append_room (b : RxBuffer) (n : Nat) (hb : size b ≤ capacity b)
    (hn : n ≤ 256) :
    n ≤ capacity (before_append b n) - size (before_append b n)
    ∧ (before_append b n).front = 0
    ∧ size (before_append b n) ≤ size b := by
  unfold capacity at hb
  unfold before_append
  simp only [capacity]
  have hsub := sub_size_t_small 256 _ hb (le_refl _)
  by_cases h : sub_size_t 256 (size b) < n
  · rw [if_pos h]
    have h0 : size (clear b) = 0 := rfl
    have hf : (clear b).front = 0 := rfl
    rw [h0]
    exact ⟨by omega, hf, by omega⟩
  · rw [if_neg h]
    rw [hsub] at h
    have h0 : size (pack b) = size b := rfl
    have hf : (pack b).front = 0 := rfl
    rw [h0]
    exact ⟨by omega, hf, by omega⟩

theorem read_within (d : Device) (b : RxBuffer) (hb : size b ≤ capacity b) :
    size (read d b).2 ≤ capacity (read d b).2 := by
  cases d with
  | data bytes =>
    simp only [read, insert_end_unsafe, capacity, size, cend, List.length_append,
      List.length_take] at *
    omega
  | failure e => exact hb

/-- A completed pass keeps every buffer within its capacity. -/
theorem loop_body_next_within (tag : Protocol) (rx : RxState) (m : Nat) (rx1 : RxState)
    (m1 : Nat) (hw : rx.within_capacity) (hs : loop_body tag rx m = Step.next rx1 m1) :
    rx1.within_capacity := by
  obtain ⟨hdev, hchans⟩ := hw
  obtain ⟨a, b, d1, d2, ch, _, _, _, _, hd, hc, _⟩ := loop_body_next_effect tag rx m rx1 m1 hs
  unfold capacity at hdev hchans
  constructor
  · rw [hd]
    simp only [capacity, size_eq_length, view_erase_begin, List.length_drop] at hdev ⊢
    omega
  · intro i
    rw [hc]
    by_cases hi : i = ch
    · subst hi
      rw [Function.update_same]
      have hl := slice_length_le ((view rx.device_buffer).drop a) d1 d2
      have hci := hchans i
      simp only [List.length_drop, size_eq_length] at hl hdev hci
      unfold before_append
      simp only [capacity]
      have hsub := sub_size_t_small 256 _ (hchans i) (le_refl _)
      by_cases h : sub_size_t 256 (size (rx.channel_buffer i)) < d2 - d1
      · rw [if_pos h]
        simp only [size_eq_length, view_after_insert, view_clear, List.nil_append]
        omega
      · rw [if_neg h]
        rw [hsub] at h
        simp only [size_eq_length, view_after_insert, view_pack, List.length_append]
          at h ⊢
        omega
    · rw [Function.update_noteq hi]
      exact hchans i

theorem reaches_within (tag : Protocol) (rx : RxState) (m : Nat) (rx1 : RxState) (m1 : Nat)
    (hw : rx.within_capacity) (h : Reaches tag rx m rx1 m1) : rx1.within_capacity := by
  induction h with
  | start => exact hw
  | pass ra ma rb mb _ _ hs ih => exact loop_body_next_within tag ra ma rb mb ih hs

/-! ## The bytes the loop retains -/

/-- The loop leaves in the device buffer what `Retains` says. -/
theorem process_loop_retains (tag : Protocol) :
    ∀ (fuel : Nat) (rx : RxState) (m : Nat) (rx1 : RxState) (m1 : Nat),
      process_loop tag fuel rx m = Except.ok (rx1, m1) →
      ∃ last, Retains tag (view rx.device_buffer) last (view rx1.device_buffer) := by
  intro fuel
  induction fuel with
  | zero =>
    intro rx m rx1 m1 h
    simp [process_loop] at h
  | succ k ih =>
    intro rx m rx1 m1 h
    rw [process_loop] at h
    cases he : empty rx.device_buffer
    · have hne := empty_eq_false _ he
      simp only [he, Bool.false_eq_true, if_false] at h
      cases hs : loop_body tag rx m with
      | stop rx2 =>
        simp only [hs, Except.ok.injEq, Prod.mk.injEq] at h
        obtain ⟨a, hf, hd, _⟩ := loop_body_stop_effect tag rx m rx2 hs
        refine ⟨some (view rx.device_buffer, a), ?_⟩
        rw [← h.1, hd]
        exact Retains.no_packet _ a hne hf
      | next rx2 m2 =>
        simp only [hs] at h
        obtain ⟨a, b, _, _, _, hf, hab, _, _, hd, _, _⟩ := loop_body_next_effect tag rx m rx2 m2 hs
        obtain ⟨last, hr⟩ := ih rx2 m2 rx1 m1 h
        rw [hd] at hr
        exact ⟨last, Retains.packet _ a b last _ hne hf hab hr⟩
      | fault f =>
        simp [hs] at h
    · simp only [he, if_true, Except.ok.injEq, Prod.mk.injEq] at h
      refine ⟨none, ?_⟩
      rw [← h.1, (empty_iff _).1 he]
      exact Retains.used_up

/-- The run fixes what is retained and which call of the finder was the last. -/
theorem retains_unique (tag : Protocol) (c : List Byte) (last : Option (List Byte × Nat))
    (r : List Byte) (h : Retains tag c last r) :
    ∀ (last2 : Option (List Byte × Nat)) (r2 : List Byte),
      Retains tag c last2 r2 → last2 = last ∧ r2 = r := by
  induction h with
  | used_up =>
    intro last2 r2 h2
    cases h2
    · exact ⟨rfl, rfl⟩
    · rename_i a2 hne2 hf2
      exact absurd rfl hne2
    · rename_i a2 b2 hab2 hne2 hf2 hrest2
      exact absurd rfl hne2
  | no_packet c a hne hf =>
    intro last2 r2 h2
    cases h2
    · exact absurd rfl hne
    · rename_i a2 hne2 hf2
      rw [hf] at hf2
      simp only [Prod.mk.injEq, and_self] at hf2
      subst hf2
      exact ⟨rfl, rfl⟩
    · rename_i a2 b2 hab2 hne2 hf2 hrest2
      rw [hf] at hf2
      simp only [Prod.mk.injEq] at hf2
      exact absurd (hf2.1.symm.trans hf2.2) hab2
  | packet c a b last r hne hf hab _ ih =>
    intro last2 r2 h2
    cases h2
    · exact absurd rfl hne
    · rename_i a2 hne2 hf2
      rw [hf] at hf2
      simp only [Prod.mk.injEq] at hf2
      exact absurd (hf2.1.trans hf2.2.symm) hab
    · rename_i a2 b2 hab2 hne2 hf2 hrest2
      rw [hf] at hf2
      simp only [Prod.mk.injEq] at hf2
      obtain ⟨rfl, rfl⟩ := hf2
      exact ih _ _ hrest2

/-- What is retained is a suffix of the buffered bytes: nothing when the bytes are
used up, and otherwise exactly what follows the offset the last call answered. -/
theorem retains_last (tag : Protocol) (c : List Byte) (last : Option (List Byte × Nat))
    (r : List Byte) (h : Retains tag c last r) :
    r <:+ c ∧ (last = none → r = [])
    ∧ (∀ (c2 : List Byte) (a : Nat), last = some (c2, a) →
        c2 <:+ c ∧ c2 ≠ [] ∧ tag.find_next_packet c2 = (a, a) ∧ r = c2.drop a) := by
  induction h with
  | used_up =>
    exact ⟨List.suffix_refl _, fun _ => rfl, fun c2 a h => by simp at h⟩
  | no_packet c a hne hf =>
    refine ⟨List.drop_suffix _ _, fun h => by simp at h, ?_⟩
    intro c2 a2 h
    simp only [Option.some.injEq, Prod.mk.injEq] at h
    obtain ⟨rfl, rfl⟩ := h
    exact ⟨List.suffix_refl _, hne, hf, rfl⟩
  | packet c a b last r _ _ _ _ ih =>
    have hsuf : (c.drop a).drop (b - a) <:+ c :=
      (List.drop_suffix _ _).trans (List.drop_suffix _ _)
    refine ⟨ih.1.trans hsuf, ih.2.1, ?_⟩
    intro c2 a2 h
    obtain ⟨h1, h2, h3, h4⟩ := ih.2.2 c2 a2 h
    exact ⟨h1.trans hsuf, h2, h3, h4⟩

/-- The rest of a run of complete packets is what the loop retains. -/
theorem extracts_retains (tag : Protocol) (c : List Byte) (pkts : List (List Byte))
    (r : List Byte) (h : Extracts tag c pkts r) : ∃ last, Retains tag c last r := by
  induction h with
  | used_up => exact ⟨none, Retains.used_up⟩
  | no_packet c a hne hf => exact ⟨_, Retains.no_packet c a hne hf⟩
  | packet c a b pkts r hf hab hb _ ih =>
    obtain ⟨last, hr⟩ := ih
    have hne : c ≠ [] := by
      intro h0; rw [h0] at hb; simp at hb; omega
    have hdrop : (c.drop a).drop (b - a) = c.drop b := by
      rw [List.drop_drop]
      congr 1
      omega
    refine ⟨last, Retains.packet c a b last r hne hf (Nat.ne_of_lt hab) ?_⟩
    rw [hdrop]
    exact hr

end BT

namespace BT

/-! ## Properties of the readers and of the driver -/

/-- C1: for every receive state whose channel `ch` respects the buffer invariant and
every destination capacity `n`, `read_channel_raw` returns `min (size) n`, writes
to the destination the that many oldest bytes of the channel in FIFO order, and
leaves the channel with exactly these bytes dropped from the front, so that the
copied bytes followed by the remaining content are the previous content. -/
theorem read_channel_raw_fifo (rx : RxState) (ch : Fin 8) (n : Nat)
    (hv : (rx.channel_buffer ch).valid) :
    (read_channel_raw rx ch n).count = ((min (size (rx.channel_buffer ch)) n : Nat) : Int)
    ∧ (read_channel_raw rx ch n).dest
        = (view (rx.channel_buffer ch)).take (min (size (rx.channel_buffer ch)) n)
    ∧ view ((read_channel_raw rx ch n).rx.channel_buffer ch)
        = (view (rx.channel_buffer ch)).drop (min (size (rx.channel_buffer ch)) n)
    ∧ (read_channel_raw rx ch n).dest ++ view ((read_channel_raw rx ch n).rx.channel_buffer ch)
        = view (rx.channel_buffer ch) := by
  have hlen := valid_length_le _ hv
  have hdest := read_channel_raw_dest rx ch n
  have hrest := read_channel_raw_rest rx ch n
  refine ⟨read_channel_raw_count rx ch n hlen, hdest, hrest, ?_⟩
  rw [hdest, hrest]
  exact List.take_append_drop _ _

theorem read_channel_raw_fifo_witness :
    ((rx_with [] (fun _ => [1, 2, 3])).channel_buffer 2).valid
    ∧ (read_channel_raw (rx_with [] (fun _ => [1, 2, 3])) 2 2).count = 2
    ∧ (read_channel_raw (rx_with [] (fun _ => [1, 2, 3])) 2 2).dest = [1, 2]
    ∧ view ((read_channel_raw (rx_with [] (fun _ => [1, 2, 3])) 2 2).rx.channel_buffer 2) = [3] := by
  have h := read_channel_raw_fifo (rx_with [] (fun _ => [1, 2, 3])) 2 2 (by decide)
  exact ⟨by decide, h.1, h.2.1, h.2.2.1⟩

/-- C2: when a pass of the loop of `process_serial_input` extracts a packet (the
finder answers a non-empty range inside the buffered bytes) for channel `ch` whose
payload `p` is a sub-range of the packet, then the pass completes and channel `ch`
afterwards holds exactly `p` if its free space `256 - size` was smaller than the
length of `p`, and its previous content followed by `p` otherwise; in particular a
channel holding 256 bytes that receives 256 bytes holds exactly the new payload. -/
theorem loop_body_overflow_policy (tag : Protocol) (rx : RxState) (m a b d1 d2 : Nat)
    (ch : Fin 8)
    (hfind : tag.find_next_packet (view rx.device_buffer) = (a, b))
    (hab : a < b) (hb : b ≤ size rx.device_buffer)
    (hch : tag.get_channel_number (slice (view rx.device_buffer) a b) = ch.val)
    (hdata : tag.get_packet_data_slice (slice (view rx.device_buffer) a b) = (d1, d2))
    (hd : d1 ≤ d2) (hd2 : d2 ≤ b - a)
    (hv : (rx.channel_buffer ch).valid) :
    ∃ rx1 m1, loop_body tag rx m = Step.next rx1 m1
      ∧ view (rx1.channel_buffer ch)
          = (if 256 - size (rx.channel_buffer ch)
                < (slice (slice (view rx.device_buffer) a b) d1 d2).length
             then slice (slice (view rx.device_buffer) a b) d1 d2
             else view (rx.channel_buffer ch) ++ slice (slice (view rx.device_buffer) a b) d1 d2)
      ∧ (size (rx.channel_buffer ch) = 256
          → (slice (slice (view rx.device_buffer) a b) d1 d2).length = 256
          → view (rx1.channel_buffer ch) = slice (slice (view rx.device_buffer) a b) d1 d2) := by
  have hstep := loop_body_next tag rx m a b d1 d2 ch hfind (Nat.ne_of_lt hab) hch hdata
  have hp : slice (slice (view rx.device_buffer) a b) d1 d2
      = slice ((view rx.device_buffer).drop a) d1 d2 := by
    rw [slice_slice _ _ _ _ _ hd2]
    simp [slice, List.drop_drop, Nat.add_comm]
  have hlen : (slice (slice (view rx.device_buffer) a b) d1 d2).length = d2 - d1 := by
    apply slice_length _ _ _ hd
    have h := slice_length (view rx.device_buffer) a b (Nat.le_of_lt hab) hb
    omega
  have hview : view ((Function.update rx.channel_buffer ch
        ( insert_end_unsafe
          (if sub_size_t 256 (size (rx.channel_buffer ch)) < d2 - d1
            then clear (rx.channel_buffer ch) else pack (rx.channel_buffer ch))
          (slice ((view rx.device_buffer).drop a) d1 d2))) ch)
      = (if 256 - size (rx.channel_buffer ch)
                < (slice (slice (view rx.device_buffer) a b) d1 d2).length
             then slice (slice (view rx.device_buffer) a b) d1 d2
             else view (rx.channel_buffer ch) ++ slice (slice (view rx.device_buffer) a b) d1 d2) := by
    have hsz := valid_length_le _ hv
    rw [Function.update_same, hlen, hp, sub_size_t_small 256 _ (by simpa using hsz) (le_refl _)]
    split <;> simp
  refine ⟨_, _, hstep, hview, ?_⟩
  intro h256 hp256
  rw [hview, if_pos]
  rw [h256, hp256]
  decide

theorem loop_body_overflow_policy_witness :
    ∃ rx1 m1, loop_body demo (rx_with [9, 0xAA, 3, 1, 7, 8] (fun _ => [5])) 0 = Step.next rx1 m1
      ∧ view (rx1.channel_buffer 1) = [5, 7, 8] := by
  obtain ⟨rx1, m1, h1, h2, _⟩ := loop_body_overflow_policy demo
    (rx_with [9, 0xAA, 3, 1, 7, 8] (fun _ => [5])) 0 1 6 3 5 1
    (by decide) (by decide) (by decide) (by decide) (by decide) (by decide) (by decide)
    (by decide)
  exact ⟨rx1, m1, h1, by rw [h2]; decide⟩

/-- C3: round trip. When the bytes buffered after the read are cut by the finder into
the complete packets `pkts`, one after another, all naming the same channel `ch`,
with payload ranges inside the packets, channel `ch` empty before the call and the
total payload length at most 256, then the call returns and a following
`read_channel_raw` on `ch` with a capacity of at least the total length returns
that length and yields the payloads concatenated in arrival order. -/
theorem round_trip_same_channel (tag : Protocol) (d : Device) (rx : RxState) (ch : Fin 8)
    (pkts : List (List Byte)) (r : List Byte) (n : Nat)
    (hx : Extracts tag (view (read d rx.device_buffer).2) pkts r)
    (hch : ∀ pkt ∈ pkts, tag.get_channel_number pkt = ch.val)
    (hin : ∀ pkt ∈ pkts, payload_inside tag pkt)
    (hempty : view (rx.channel_buffer ch) = [])
    (htotal : ((pkts.map (payload_of tag)).flatten).length ≤ 256)
    (hn : ((pkts.map (payload_of tag)).flatten).length ≤ n) :
    ∃ mask rx1, process_serial_input tag d rx = Except.ok (mask, rx1)
      ∧ (read_channel_raw rx1 ch n).count
          = (((pkts.map (payload_of tag)).flatten).length : Int)
      ∧ (read_channel_raw rx1 ch n).dest = (pkts.map (payload_of tag)).flatten := by
  obtain ⟨rx1, hrun, hdev, hchan⟩ := process_serial_input_run tag d rx pkts r hx
    (fun pkt hp => by rw [hch pkt hp]; exact ch.isLt)
  have hall := payloads_for_all tag ch.val pkts hch
  have hview : view (rx1.channel_buffer ch) = (pkts.map (payload_of tag)).flatten := by
    rw [hchan hin, route_fits tag pkts rx.channel_buffer ch (by rw [hempty, hall]; simpa using htotal),
      hempty, hall, List.nil_append]
  have hcount := read_channel_raw_count rx1 ch n (by rw [hview]; exact htotal)
  have hdest := read_channel_raw_dest rx1 ch n
  rw [size_eq_length, hview, Nat.min_eq_left hn] at hcount hdest
  refine ⟨_, rx1, hrun, hcount, ?_⟩
  rw [hdest, List.take_length]

theorem round_trip_same_channel_witness :
    ∃ mask rx1,
      process_serial_input demo (Device.data [0xAA, 2, 1, 7, 0xAA, 3, 1, 8, 9])
          (rx_with [] (fun _ => [])) = Except.ok (mask, rx1)
      ∧ (read_channel_raw rx1 1 10).count = 3
      ∧ (read_channel_raw rx1 1 10).dest = [7, 8, 9] :=
  round_trip_same_channel demo (Device.data [0xAA, 2, 1, 7, 0xAA, 3, 1, 8, 9]) (rx_with [] (fun _ => [])) 1
    [[0xAA, 2, 1, 7], [0xAA, 3, 1, 8, 9]] [] 10
    (Extracts.packet [0xAA, 2, 1, 7, 0xAA, 3, 1, 8, 9] 0 4 [[0xAA, 3, 1, 8, 9]] []
      (by decide) (by decide) (by decide)
      (Extracts.packet [0xAA, 3, 1, 8, 9] 0 5 [] [] (by decide) (by decide) (by decide)
        Extracts.used_up))
    (by decide) (by decide) (by decide) (by decide) (by decide)

/-- C4: the code at an input where the message does not start at the front of
channel 0. The channel holds `9, 0x55, 1, 7` and `find_next_packet_safe` reports the
message `0x55, 1, 7` at offsets 1 to 4. `read_service_channel` returns 3 and writes
the message to the destination, but it erases the three oldest bytes `9, 0x55, 1`:
the last byte `7` of the delivered message stays in the channel, so the bytes
removed are not the bytes of the message. -/
theorem read_service_channel_erases_oldest :
    demo.find_next_packet_safe [9, 0x55, 1, 7] = (1, 4)
    ∧ (read_service_channel demo (rx_with [] (fun _ => [9, 0x55, 1, 7])) 10).count = 3
    ∧ (read_service_channel demo (rx_with [] (fun _ => [9, 0x55, 1, 7])) 10).dest = [0x55, 1, 7]
    ∧ view ((read_service_channel demo (rx_with [] (fun _ => [9, 0x55, 1, 7])) 10).rx.channel_buffer 0)
        = [7] := by
  decide

/-- C5: when `find_next_packet_safe` finds in channel 0 a complete message of length
`b - a` at least 1 and the destination capacity `n` is smaller, `read_service_channel`
returns `-ENOMEM`, a negative number (so neither 0 nor a length), and leaves the
receive state unchanged; a following call with a capacity `n2` of at least the
length returns the length and delivers exactly the bytes of the message. -/
theorem read_service_channel_too_small (tag : Protocol) (rx : RxState) (a b n n2 : Nat)
    (hv : (rx.channel_buffer 0).valid)
    (hfind : tag.find_next_packet_safe (view (rx.channel_buffer 0)) = (a, b))
    (hab : a < b) (hb : b ≤ size (rx.channel_buffer 0))
    (hn : n < b - a) (hn2 : b - a ≤ n2) :
    (read_service_channel tag rx n).count = -(ENOMEM : Int)
    ∧ (read_service_channel tag rx n).count < 0
    ∧ (read_service_channel tag rx n).rx = rx
    ∧ (read_service_channel tag (read_service_channel tag rx n).rx n2).count = ((b - a : Nat) : Int)
    ∧ (read_service_channel tag (read_service_channel tag rx n).rx n2).dest
        = slice (view (rx.channel_buffer 0)) a b := by
  have hlen := valid_length_le _ hv
  simp only [size_eq_length] at hb
  have hne : view (rx.channel_buffer 0) ≠ [] := by
    intro h; rw [h] at hb; simp at hb; omega
  have h1 := read_service_channel_eq tag rx n a b hne hfind
  rw [if_pos (by omega), if_pos hn] at h1
  have h2 := read_service_channel_eq tag rx n2 a b hne hfind
  rw [if_pos (by omega), if_neg (by omega)] at h2
  have hrx : (read_service_channel tag rx n).rx = rx := by rw [h1]
  refine ⟨?_, ?_, hrx, ?_, ?_⟩
  · rw [h1]; exact to_ssize_t_neg_ENOMEM
  · rw [h1]; show to_ssize_t (neg_size_t ENOMEM) < 0
    rw [to_ssize_t_neg_ENOMEM]; decide
  · rw [hrx, h2]; exact to_ssize_t_small _ (by omega)
  · rw [hrx, h2]

theorem read_service_channel_too_small_witness :
    (read_service_channel demo (rx_with [] (fun _ => [0x55, 1, 7, 4])) 2).count = -(ENOMEM : Int)
    ∧ (read_service_channel demo
        (read_service_channel demo (rx_with [] (fun _ => [0x55, 1, 7, 4])) 2).rx 3).dest
        = [0x55, 1, 7] := by
  have h := read_service_channel_too_small demo (rx_with [] (fun _ => [0x55, 1, 7, 4])) 0 3 2 3
    (by decide) (by decide) (by decide) (by decide) (by decide) (by decide)
  exact ⟨h.1, h.2.2.2.2⟩

/-- C6: for a receive state whose channel 0 respects the buffer invariant and a
`find_next_packet_safe` that, when called, answers a range inside the buffered bytes,
`read_service_channel` returns 0 exactly when channel 0 is empty or the reported
range is empty, and whenever it returns 0 or the error value `-ENOMEM` the whole
receive state is unchanged. -/
theorem read_service_channel_atomic (tag : Protocol) (rx : RxState) (n : Nat)
    (hv : (rx.channel_buffer 0).valid)
    (hrange : view (rx.channel_buffer 0) ≠ [] →
      (tag.find_next_packet_safe (view (rx.channel_buffer 0))).1
        ≤ (tag.find_next_packet_safe (view (rx.channel_buffer 0))).2
      ∧ (tag.find_next_packet_safe (view (rx.channel_buffer 0))).2
        ≤ size (rx.channel_buffer 0)) :
    ((read_service_channel tag rx n).count = 0
      ↔ (view (rx.channel_buffer 0) = []
          ∨ (tag.find_next_packet_safe (view (rx.channel_buffer 0))).1
            = (tag.find_next_packet_safe (view (rx.channel_buffer 0))).2))
    ∧ ((read_service_channel tag rx n).count = 0
        ∨ (read_service_channel tag rx n).count = -(ENOMEM : Int)
        → (read_service_channel tag rx n).rx = rx) := by
  have hlen := valid_length_le _ hv
  by_cases he : view (rx.channel_buffer 0) = []
  · rw [read_service_channel_of_empty tag rx n he]
    simp [he]
  · obtain ⟨a, b, hf⟩ : ∃ a b, tag.find_next_packet_safe (view (rx.channel_buffer 0)) = (a, b) :=
      ⟨_, _, rfl⟩
    have h := read_service_channel_eq tag rx n a b he hf
    rw [hf] at hrange ⊢
    obtain ⟨h12, h2⟩ := hrange he
    simp only [size_eq_length] at h12 h2
    simp only [he, false_or]
    by_cases hs : a = b
    · rw [if_neg (by omega)] at h
      rw [h, hs]
      simp [to_ssize_t_small]
    · rw [if_pos (by omega)] at h
      by_cases hn : n < b - a
      · rw [if_pos hn] at h
        rw [h]
        simp [to_ssize_t_neg_ENOMEM, hs]
      · rw [if_neg hn] at h
        rw [h]
        have hc := to_ssize_t_small (b - a) (by omega)
        simp only [hc, hs, iff_false]
        constructor
        · omega
        · intro h0
          exfalso
          unfold ENOMEM at h0
          omega

theorem read_service_channel_atomic_witness :
    (read_service_channel demo (rx_with [] (fun _ => [0x55, 3, 7])) 8).count = 0
    ∧ (read_service_channel demo (rx_with [] (fun _ => [0x55, 3, 7])) 8).rx
        = rx_with [] (fun _ => [0x55, 3, 7]) := by
  have h := read_service_channel_atomic demo (rx_with [] (fun _ => [0x55, 3, 7])) 8
    (by decide) (fun _ => by decide)
  have h0 : (read_service_channel demo (rx_with [] (fun _ => [0x55, 3, 7])) 8).count = 0 :=
    h.1.2 (Or.inr (by decide))
  exact ⟨h0, h.2 (Or.inl h0)⟩

/-- C7: when the bytes buffered after the read are cut by the finder into the
complete packets `pkts`, each naming a channel in `0..7`, `process_serial_input`
returns a mask in which bit `i` is set if and only if at least one of these packets
names channel `i`; the mask is `0` when no packet is extracted. -/
theorem notify_mask_bits (tag : Protocol) (d : Device) (rx : RxState)
    (pkts : List (List Byte)) (r : List Byte)
    (hx : Extracts tag (view (read d rx.device_buffer).2) pkts r)
    (hch : ∀ pkt ∈ pkts, tag.get_channel_number pkt < 8) :
    ∃ mask rx1, process_serial_input tag d rx = Except.ok (mask, rx1)
      ∧ (∀ i : Nat, mask.testBit i = true ↔ ∃ pkt ∈ pkts, tag.get_channel_number pkt = i)
      ∧ (pkts = [] → mask = 0) := by
  obtain ⟨rx1, hrun, _, _⟩ := process_serial_input_run tag d rx pkts r hx hch
  refine ⟨_, rx1, hrun, ?_, ?_⟩
  · intro i
    rw [testBit_mark_all]
    simp
  · intro h
    rw [h]
    rfl

theorem notify_mask_bits_witness :
    ∃ mask rx1,
      process_serial_input demo (Device.data [0xAA, 2, 1, 7, 0xAA, 3, 4, 8, 9, 0xAA])
          (rx_with [] (fun _ => [])) = Except.ok (mask, rx1)
      ∧ mask.testBit 1 = true ∧ mask.testBit 4 = true ∧ mask.testBit 2 = false := by
  obtain ⟨mask, rx1, h1, h2, _⟩ := notify_mask_bits demo
    (Device.data [0xAA, 2, 1, 7, 0xAA, 3, 4, 8, 9, 0xAA]) (rx_with [] (fun _ => []))
    [[0xAA, 2, 1, 7], [0xAA, 3, 4, 8, 9]] [0xAA]
    (Extracts.packet [0xAA, 2, 1, 7, 0xAA, 3, 4, 8, 9, 0xAA] 0 4 [[0xAA, 3, 4, 8, 9]] [0xAA]
      (by decide) (by decide) (by decide)
      (Extracts.packet [0xAA, 3, 4, 8, 9, 0xAA] 0 5 [] [0xAA] (by decide) (by decide) (by decide)
        (Extracts.no_packet [0xAA] 0 (by decide) (by decide))))
    (by decide)
  refine ⟨mask, rx1, h1, (h2 1).2 (by decide), (h2 4).2 (by decide), ?_⟩
  cases hb : mask.testBit 2
  · rfl
  · exact absurd ((h2 2).1 hb) (by decide)

/-- C8: resync. When the device buffer after the read holds garbage `G` followed by
a packet `P` for channel `ch` and the finder reports the bounds of `P`, one call of
`process_serial_input` leaves the device buffer empty, sets bit `ch` of the mask,
leaves every other channel buffer unchanged, and, when the payload fits in the free
space of channel `ch`, leaves that channel holding its previous content followed by
the payload. -/
theorem resync_garbage_then_packet (tag : Protocol) (d : Device) (rx : RxState) (G P : List Byte) (ch : Fin 8)
    (hbuf : view (read d rx.device_buffer).2 = G ++ P)
    (hP : P ≠ [])
    (hfind : tag.find_next_packet (G ++ P) = (G.length, G.length + P.length))
    (hch : tag.get_channel_number P = ch.val)
    (hin : payload_inside tag P) :
    ∃ mask rx1, process_serial_input tag d rx = Except.ok (mask, rx1)
      ∧ view rx1.device_buffer = []
      ∧ mask.testBit ch.val = true
      ∧ (∀ i, i ≠ ch → rx1.channel_buffer i = rx.channel_buffer i)
      ∧ (size (rx.channel_buffer ch) + (payload_of tag P).length ≤ 256 →
          view (rx1.channel_buffer ch) = view (rx.channel_buffer ch) ++ payload_of tag P) := by
  have hx : Extracts tag (view (read d rx.device_buffer).2) [P] [] := by
    rw [hbuf]
    exact extracts_single tag G P hP hfind
  obtain ⟨rx1, hrun, hdev, hchan⟩ := process_serial_input_run tag d rx [P] [] hx
    (by intro pkt hp; rw [List.mem_singleton.1 hp, hch]; exact ch.isLt)
  have hroute := hchan (by intro pkt hp; rw [List.mem_singleton.1 hp]; exact hin)
  refine ⟨_, rx1, hrun, by rw [hdev]; rfl, ?_, ?_, ?_⟩
  · rw [testBit_mark_all]
    exact Or.inr ⟨P, List.mem_singleton_self _, hch⟩
  · intro i hi
    rw [hroute]
    apply route_untouched
    intro pkt hp e
    rw [List.mem_singleton.1 hp, hch] at e
    exact hi (Fin.ext e.symm)
  · intro hfit
    rw [hroute, route_fits]
    · simp [payloads_for, hch]
    · simpa [payloads_for, hch] using hfit

theorem resync_garbage_then_packet_witness :
    ∃ mask rx1,
      process_serial_input demo (Device.data [4, 0xAA, 3, 1, 7, 8]) (rx_with [9] (fun _ => [5]))
        = Except.ok (mask, rx1)
      ∧ view rx1.device_buffer = []
      ∧ mask.testBit 1 = true
      ∧ view (rx1.channel_buffer 1) = [5, 7, 8] := by
  obtain ⟨mask, rx1, h1, h2, h3, _, h5⟩ := resync_garbage_then_packet demo (Device.data [4, 0xAA, 3, 1, 7, 8])
    (rx_with [9] (fun _ => [5])) [9, 4] [0xAA, 3, 1, 7, 8] 1
    (by decide) (by decide) (by decide) (by decide) (by decide)
  exact ⟨mask, rx1, h1, h2, h3, h5 (by decide)⟩

/-- C9: a packet `A ++ B` for channel `ch` that arrives in two reads. The device
buffer is empty at the start, `A` is not empty, both parts fit in the device
buffer, the finder reports on `A` no complete packet and skips nothing, and on
`A ++ B` the bounds of the whole packet (so `B` is not empty either). The call
whose read delivers `A` returns a mask with bit `ch` clear (the mask is `0`),
changes no channel buffer and retains `A`; the next call, whose read delivers `B`,
sets bit `ch`, leaves the device buffer empty and, when the payload fits, leaves
channel `ch` holding its previous content followed by the payload, once. -/
theorem split_packet_two_calls (tag : Protocol) (rx : RxState) (A B : List Byte) (ch : Fin 8)
    (hdev : rx.device_buffer = { front := 0, content := [] })
    (hA : A ≠ [])
    (hlen : A.length + B.length ≤ 256)
    (hfindA : tag.find_next_packet A = (0, 0))
    (hfindAB : tag.find_next_packet (A ++ B) = (0, A.length + B.length))
    (hch : tag.get_channel_number (A ++ B) = ch.val)
    (hin : payload_inside tag (A ++ B)) :
    ∃ m1 rx1 m2 rx2,
      process_serial_input tag (Device.data A) rx = Except.ok (m1, rx1)
      ∧ m1 = 0 ∧ m1.testBit ch.val = false
      ∧ rx1.channel_buffer = rx.channel_buffer
      ∧ view rx1.device_buffer = A
      ∧ process_serial_input tag (Device.data B) rx1 = Except.ok (m2, rx2)
      ∧ m2.testBit ch.val = true
      ∧ view rx2.device_buffer = []
      ∧ (size (rx.channel_buffer ch) + (payload_of tag (A ++ B)).length ≤ 256 →
          view (rx2.channel_buffer ch)
            = view (rx.channel_buffer ch) ++ payload_of tag (A ++ B)) := by
  have hreadA : view (read (Device.data A) rx.device_buffer).2 = A := by
    rw [hdev]
    simp only [read, capacity, cend, size_eq_length, view, insert_end_unsafe, List.length_nil,
      Nat.add_zero, Nat.sub_zero, List.nil_append]
    exact List.take_of_length_le (by omega)
  have hxA : Extracts tag (view (read (Device.data A) rx.device_buffer).2) [] A := by
    rw [hreadA]
    exact Extracts.no_packet A 0 hA hfindA
  obtain ⟨rx1, hrun1, hdev1, hchan1⟩ := process_serial_input_run tag (Device.data A) rx [] A hxA
    (by simp)
  have hc1 : rx1.channel_buffer = rx.channel_buffer := hchan1 (by simp)
  have hreadB : view (read (Device.data B) rx1.device_buffer).2 = A ++ B := by
    rw [hdev1]
    simp only [read, capacity, cend, size_eq_length, view, insert_end_unsafe, Nat.zero_add]
    rw [List.take_of_length_le (by omega)]
  have hxB : Extracts tag (view (read (Device.data B) rx1.device_buffer).2) [A ++ B] [] := by
    rw [hreadB]
    exact extracts_single tag [] (A ++ B) (by simp [hA]) (by simpa using hfindAB)
  obtain ⟨rx2, hrun2, hdev2, hchan2⟩ := process_serial_input_run tag (Device.data B) rx1
    [A ++ B] [] hxB (by intro pkt hp; rw [List.mem_singleton.1 hp, hch]; exact ch.isLt)
  have hroute := hchan2 (by intro pkt hp; rw [List.mem_singleton.1 hp]; exact hin)
  refine ⟨_, rx1, _, rx2, hrun1, rfl, ?_, hc1, by rw [hdev1]; rfl, hrun2, ?_,
    by rw [hdev2]; rfl, ?_⟩
  · simp [mark_all]
  · rw [testBit_mark_all]
    exact Or.inr ⟨A ++ B, List.mem_singleton_self _, hch⟩
  · intro hfit
    rw [hroute, hc1, route_fits]
    · simp [payloads_for, hch]
    · simpa [payloads_for, hch] using hfit

theorem split_packet_two_calls_witness :
    ∃ m1 rx1 m2 rx2,
      process_serial_input demo (Device.data [0xAA, 3, 1]) (rx_with [] (fun _ => [5]))
        = Except.ok (m1, rx1)
      ∧ m1 = 0
      ∧ view rx1.device_buffer = [0xAA, 3, 1]
      ∧ process_serial_input demo (Device.data [7, 8]) rx1 = Except.ok (m2, rx2)
      ∧ m2.testBit 1 = true
      ∧ view (rx2.channel_buffer 1) = [5, 7, 8] := by
  obtain ⟨m1, rx1, m2, rx2, h1, h2, _, _, h5, h6, h7, _, h9⟩ := split_packet_two_calls demo
    (rx_with [] (fun _ => [5])) [0xAA, 3, 1] [7, 8] 1 rfl
    (by decide) (by decide) (by decide) (by decide) (by decide) (by decide)
  exact ⟨m1, rx1, m2, rx2, h1, h2, h5, h6, h7, h9 (by decide)⟩

/-- C10: idempotence. For a receive state left by a `process_serial_input` call and
a finder that, applied again to the bytes retained in the device buffer, reports
again no complete packet at their start, a further call whose read delivers no
byte returns the mask `0` and the same receive state: the device buffer and the
eight channel buffers are unchanged. -/
theorem no_input_idempotent (tag : Protocol) (d : Device) (rx0 rx : RxState) (m : Nat)
    (hprev : process_serial_input tag d rx0 = Except.ok (m, rx))
    (hfind : view rx.device_buffer ≠ [] →
      tag.find_next_packet (view rx.device_buffer) = (0, 0)) :
    process_serial_input tag (Device.data []) rx = Except.ok (0, rx) := by
  have hfront := process_serial_input_front tag d rx0 rx m hprev
  have hread : (read (Device.data []) rx.device_buffer).2 = rx.device_buffer := by
    simp [read, insert_end_unsafe]
  have hx : Extracts tag (view (read (Device.data []) rx.device_buffer).2) []
      (view rx.device_buffer) := by
    rw [hread]
    by_cases he : view rx.device_buffer = []
    · rw [he]; exact Extracts.used_up
    · exact Extracts.no_packet _ 0 he (hfind he)
  obtain ⟨rx1, hrun, hdev, hchan⟩ := process_serial_input_run tag (Device.data []) rx []
    (view rx.device_buffer) hx (by simp)
  have hc := hchan (by simp)
  have hrx : rx1 = rx := by
    cases rx1 with
    | mk dev1 ch1 =>
      cases rx with
      | mk dev chs =>
        cases dev with
        | mk f c =>
          simp only [view] at hdev hfront
          subst hfront
          simp only [RxState.mk.injEq]
          exact ⟨hdev, hc⟩
  rw [hrun, hrx]
  rfl

theorem no_input_idempotent_witness :
    process_serial_input demo (Device.data []) (rx_with [0xAA, 5, 1] (fun _ => []))
      = Except.ok (0, rx_with [0xAA, 5, 1] (fun _ => [])) :=
  no_input_idempotent demo (Device.data [0xAA, 5, 1]) (rx_with [] (fun _ => []))
    (rx_with [0xAA, 5, 1] (fun _ => [])) 0 rfl (fun _ => by decide)

/-- C11: byte accounting. When the finder cuts the bytes buffered after the read
into the run `evs` (every packet with the number of bytes skipped in front of it),
`g` bytes skipped by the last call and the retained rest, with channels in `0..7`
and payload ranges inside the packets, the call returns and the number of bytes
removed from the device buffer is the number of bytes discarded in front of packet
starts plus the framing bytes of the packets plus the payload bytes; the channel
buffers are those obtained by delivering each payload once, in the order of the
packets, to the channel its packet names, so that each channel holds a tail of its
previous content followed by its payloads in order (all of it when nothing
overflows), and the payload bytes addressed to the eight channels add up to the
payload bytes of the packets. -/
theorem byte_accounting (tag : Protocol) (d : Device) (rx : RxState)
    (evs : List (Nat × List Byte)) (g : Nat) (r : List Byte)
    (hx : Scans tag (view (read d rx.device_buffer).2) evs g r)
    (hch : ∀ e ∈ evs, tag.get_channel_number e.2 < 8)
    (hpay : ∀ e ∈ evs, payload_inside tag e.2) :
    ∃ mask rx1, process_serial_input tag d rx = Except.ok (mask, rx1)
      ∧ view rx1.device_buffer = r
      ∧ size (read d rx.device_buffer).2 - size rx1.device_buffer
          = discarded_bytes evs g + framing_bytes tag evs + payload_bytes tag evs
      ∧ rx1.channel_buffer = route tag (evs.map Prod.snd) rx.channel_buffer
      ∧ (∀ i : Fin 8, view (rx1.channel_buffer i)
          <:+ view (rx.channel_buffer i) ++ payloads_for tag i.val (evs.map Prod.snd))
      ∧ (∀ i : Fin 8,
          size (rx.channel_buffer i) + (payloads_for tag i.val (evs.map Prod.snd)).length ≤ 256 →
          view (rx1.channel_buffer i)
            = view (rx.channel_buffer i) ++ payloads_for tag i.val (evs.map Prod.snd))
      ∧ (Finset.univ.sum fun i : Fin 8 => (payloads_for tag i.val (evs.map Prod.snd)).length)
          = payload_bytes tag evs := by
  have hch2 : ∀ pkt ∈ evs.map Prod.snd, tag.get_channel_number pkt < 8 := by
    intro pkt hp
    obtain ⟨e, he, rfl⟩ := List.mem_map.1 hp
    exact hch e he
  have hpay2 : ∀ pkt ∈ evs.map Prod.snd, payload_inside tag pkt := by
    intro pkt hp
    obtain ⟨e, he, rfl⟩ := List.mem_map.1 hp
    exact hpay e he
  obtain ⟨rx1, hrun, hdev, hchan⟩ := process_serial_input_run tag d rx _ r
    (scans_extracts tag _ evs g r hx) hch2
  have hroute := hchan hpay2
  have hacc := scans_accounting tag _ evs g r hx
  have hfp := framing_add_payload tag evs
  refine ⟨_, rx1, hrun, by rw [hdev]; rfl, ?_, hroute, ?_, ?_, payloads_for_total tag evs hch⟩
  · simp only [size_eq_length, hdev]
    show (view (read d rx.device_buffer).2).length - r.length = _
    omega
  · intro i
    rw [hroute]
    exact route_suffix tag _ rx.channel_buffer i
  · intro i hfit
    rw [hroute]
    exact route_fits tag _ rx.channel_buffer i hfit

theorem byte_accounting_witness :
    ∃ mask rx1,
      process_serial_input demo (Device.data [4, 0xAA, 2, 1, 7, 0xAA, 3, 4, 8, 9, 0xAA])
          (rx_with [] (fun _ => [5])) = Except.ok (mask, rx1)
      ∧ view rx1.device_buffer = [0xAA]
      ∧ 11 - size rx1.device_buffer = 1 + 6 + 3
      ∧ view (rx1.channel_buffer 4) = [5, 8, 9] := by
  obtain ⟨mask, rx1, h1, h2, h3, _, _, h6, _⟩ := byte_accounting demo
    (Device.data [4, 0xAA, 2, 1, 7, 0xAA, 3, 4, 8, 9, 0xAA]) (rx_with [] (fun _ => [5]))
    [(1, [0xAA, 2, 1, 7]), (0, [0xAA, 3, 4, 8, 9])] 0 [0xAA]
    (Scans.packet [4, 0xAA, 2, 1, 7, 0xAA, 3, 4, 8, 9, 0xAA] 1 5 [(0, [0xAA, 3, 4, 8, 9])] 0 [0xAA]
      (by decide) (by decide) (by decide)
      (Scans.packet [0xAA, 3, 4, 8, 9, 0xAA] 0 5 [] 0 [0xAA] (by decide) (by decide) (by decide)
        (Scans.no_packet [0xAA] 0 (by decide) (by decide) (by decide))))
    (by decide) (by decide)
  exact ⟨mask, rx1, h1, h2, h3, h6 4 (by decide)⟩

/-- C12: the unchecked append is safe. Let every buffer of the receive state hold
at most 256 bytes, the finder answer inside the buffered range, the channel numbers
be in `0..7` and the payload ranges lie inside the packets. Then at every state at
the head of the loop every buffer holds at most 256 bytes, and the pass that
extracts a packet there calls `insert_end_unsafe` on the channel buffer after its
clear or pack with exactly `d2 - d1` payload bytes, while
`capacity - size` of that buffer is at least `d2 - d1`, so the buffer it returns
lies inside its 256 cells; and the call returns with every buffer holding at most
256 bytes. -/
theorem unchecked_append_has_room (tag : Protocol) (d : Device) (rx : RxState)
    (hw : rx.within_capacity)
    (hfind : finder_in_range tag)
    (hch : ∀ pkt, tag.get_channel_number pkt < 8)
    (hpay : ∀ pkt, payload_inside tag pkt) :
    (∀ rx2 m2,
      Reaches tag { rx with device_buffer := (read d rx.device_buffer).2 } 0 rx2 m2 →
      rx2.within_capacity
      ∧ (empty rx2.device_buffer = false →
          ∀ (a b d1 d2 : Nat) (ch : Fin 8),
            tag.find_next_packet (view rx2.device_buffer) = (a, b) → a ≠ b →
            tag.get_channel_number (slice (view rx2.device_buffer) a b) = ch.val →
            tag.get_packet_data_slice (slice (view rx2.device_buffer) a b) = (d1, d2) →
            loop_body tag rx2 m2 = Step.next
                { device_buffer := erase_begin (erase_begin rx2.device_buffer a) (b - a)
                  channel_buffer := Function.update rx2.channel_buffer ch
                    ( insert_end_unsafe (before_append (rx2.channel_buffer ch) (d2 - d1))
                      (slice ((view rx2.device_buffer).drop a) d1 d2)) }
                (m2 ||| 1 <<< ch.val)
            ∧ (slice ((view rx2.device_buffer).drop a) d1 d2).length = d2 - d1
            ∧ d2 - d1 ≤ capacity (before_append (rx2.channel_buffer ch) (d2 - d1))
                - size (before_append (rx2.channel_buffer ch) (d2 - d1))
            ∧ ( insert_end_unsafe (before_append (rx2.channel_buffer ch) (d2 - d1))
                  (slice ((view rx2.device_buffer).drop a) d1 d2)).valid))
    ∧ ∃ mask rx1, process_serial_input tag d rx = Except.ok (mask, rx1)
        ∧ rx1.within_capacity := by
  have hw0 : RxState.within_capacity
      { rx with device_buffer := (read d rx.device_buffer).2 } :=
    ⟨read_within d rx.device_buffer hw.1, hw.2⟩
  constructor
  · intro rx2 m2 hr
    have hw2 := reaches_within tag _ _ _ _ hw0 hr
    refine ⟨hw2, ?_⟩
    intro hemp a b d1 d2 ch hf hab hc hd
    obtain ⟨h12, h2⟩ := hfind _ (empty_eq_false _ hemp)
    rw [hf] at h12 h2
    simp only at h12 h2
    obtain ⟨hp1, hp2⟩ := hpay (slice (view rx2.device_buffer) a b)
    rw [hd] at hp1 hp2
    simp only at hp1 hp2
    have hpl := slice_length (view rx2.device_buffer) a b h12 h2
    have hdev := hw2.1
    simp only [capacity, size_eq_length] at hdev
    have hlen : (slice ((view rx2.device_buffer).drop a) d1 d2).length = d2 - d1 :=
      slice_length _ d1 d2 hp1 (by rw [List.length_drop]; omega)
    obtain ⟨hroom, hfront, hsize⟩ := before_append_room (rx2.channel_buffer ch) (d2 - d1)
      (hw2.2 ch) (by omega)
    refine ⟨loop_body_next tag rx2 m2 a b d1 d2 ch hf hab hc hd, hlen, hroom, ?_⟩
    have hc2 := hw2.2 ch
    simp only [capacity] at hroom hc2
    show cend _ ≤ capacity _
    simp only [cend, capacity, insert_end_unsafe, size, List.length_append] at *
    rw [hfront, hlen]
    omega
  · obtain ⟨mask, rx1, hret⟩ := process_serial_input_returns tag d rx hfind hch
    refine ⟨mask, rx1, hret, ?_⟩
    obtain ⟨rxl, hloop, hdev, hchan⟩ := process_serial_input_ok tag d rx mask rx1 hret
    have hwl : rxl.within_capacity := by
      rcases process_loop_exit tag _ _ _ _ _ hloop with ⟨hr, _⟩ | ⟨rx2, hr, _, hstop⟩
      · exact reaches_within tag _ _ _ _ hw0 hr
      · have hw2 := reaches_within tag _ _ _ _ hw0 hr
        obtain ⟨a, _, hd2, hc2⟩ := loop_body_stop_effect tag rx2 mask rxl hstop
        refine ⟨?_, by rw [hc2]; exact hw2.2⟩
        have h1 := hw2.1
        rw [hd2]
        simp only [capacity, size_eq_length, view_erase_begin, List.length_drop] at h1 ⊢
        omega
    refine ⟨?_, by rw [hchan]; exact hwl.2⟩
    rw [hdev]
    exact hwl.1

theorem unchecked_append_has_room_witness :
    ∃ mask rx1,
      process_serial_input demo8 (Device.data [4, 0xAA, 3, 1, 7, 8, 0xAA])
          (rx_with [] (fun _ => [5])) = Except.ok (mask, rx1)
      ∧ rx1.within_capacity := by
  have h := unchecked_append_has_room demo8 (Device.data [4, 0xAA, 3, 1, 7, 8, 0xAA])
    (rx_with [] (fun _ => [5]))
    ⟨by decide, fun _ => by show ([5] : List Byte).length ≤ 256; decide⟩
    demo8_finder_in_range
    (fun pkt => Nat.mod_lt _ (by decide))
    (fun pkt => ⟨Nat.min_le_right _ _, le_refl _⟩)
  exact h.2

/-- C13: `drain` leaves channel `ch` empty whatever it held, so that a following
`read_channel_raw` on `ch` returns 0 and copies nothing, and leaves the device
buffer and the other seven channel buffers unchanged. -/
theorem drain_clears_one_channel (rx : RxState) (ch : Fin 8) (n : Nat) :
    view ((drain rx ch).channel_buffer ch) = []
    ∧ (read_channel_raw (drain rx ch) ch n).count = 0
    ∧ (read_channel_raw (drain rx ch) ch n).dest = []
    ∧ (drain rx ch).device_buffer = rx.device_buffer
    ∧ (∀ i, i ≠ ch → (drain rx ch).channel_buffer i = rx.channel_buffer i) := by
  have hview : view ((drain rx ch).channel_buffer ch) = [] := by
    simp [drain]
  refine ⟨hview, ?_, ?_, rfl, ?_⟩
  · have h := read_channel_raw_count (drain rx ch) ch n (by rw [hview]; simp)
    rw [h, size_eq_length, hview]
    simp
  · rw [read_channel_raw_dest, hview]
    simp
  · intro i hi
    simp [drain, Function.update_noteq hi]

/-- C14: termination and bounded work. For a framing contract whose finder answers
positions inside the buffered range with the start not after the end, the loop of
`process_serial_input` does not run out of the passes it is given (one more than
the bytes buffered after the read) and allowing more passes does not change its
result, the number of packets it extracts is at most
the number of bytes in the device buffer after the read, whatever the number of
passes allowed, and every pass that completes removes at least one byte from the
device buffer. -/
theorem loop_terminates_bounded (tag : Protocol) (d : Device) (rx : RxState)
    (hfind : finder_in_range tag) :
    process_serial_input tag d rx ≠ Except.error Fault.out_of_fuel
    ∧ (∀ fuel m, size (read d rx.device_buffer).2 < fuel →
        process_loop tag fuel { rx with device_buffer := (read d rx.device_buffer).2 } m
          = process_loop tag (size (read d rx.device_buffer).2 + 1)
              { rx with device_buffer := (read d rx.device_buffer).2 } m)
    ∧ (∀ fuel m,
        count_passes tag fuel { rx with device_buffer := (read d rx.device_buffer).2 } m
          ≤ size (read d rx.device_buffer).2)
    ∧ (∀ rx0 m rx1 m1, empty rx0.device_buffer = false →
        loop_body tag rx0 m = Step.next rx1 m1 →
        size rx1.device_buffer < size rx0.device_buffer) := by
  have hdecr : ∀ rx0 m rx1 m1, empty rx0.device_buffer = false →
      loop_body tag rx0 m = Step.next rx1 m1 →
      size rx1.device_buffer < size rx0.device_buffer := by
    intro rx0 m rx1 m1 he hs
    obtain ⟨hv, h1, h2⟩ := loop_body_next_removes tag hfind rx0 m rx1 m1 (empty_eq_false _ he) hs
    simp only [size_eq_length, hv, List.length_drop]
    omega
  have hcount : ∀ (fuel : Nat) (rx0 : RxState) (m : Nat),
      count_passes tag fuel rx0 m ≤ size rx0.device_buffer := by
    intro fuel
    induction fuel with
    | zero => intro rx0 m; simp [count_passes]
    | succ k ih =>
      intro rx0 m
      rw [count_passes]
      cases he : empty rx0.device_buffer
      · simp only [Bool.false_eq_true, if_false]
        cases hs : loop_body tag rx0 m with
        | stop rx1 => simp
        | next rx1 m1 =>
          have h1 := hdecr rx0 m rx1 m1 he hs
          have h2 := ih rx1 m1
          simp only
          omega
        | fault f => simp
      · simp
  refine ⟨?_, ?_, fun fuel m => hcount fuel _ m, hdecr⟩
  swap
  · intro fuel m hfuel
    exact process_loop_fuel_irrelevant tag hfind _ _ _ m
      (by simpa only [size_eq_length] using hfuel) (by simp only [size_eq_length]; omega)
  intro hpsi
  unfold process_serial_input at hpsi
  simp only at hpsi
  split at hpsi
  · exact absurd hpsi (by simp)
  · rename_i f hloop
    simp only [Except.error.injEq] at hpsi
    rw [hpsi] at hloop
    exact process_loop_enough_fuel tag hfind _ _ _ (by simp only [size_eq_length]; omega) hloop

theorem loop_terminates_bounded_witness :
    process_serial_input demo (Device.data [4, 0xAA, 2, 1, 7, 0xAA, 3, 1, 8, 9, 0xAA])
        (rx_with [] (fun _ => [])) ≠ Except.error Fault.out_of_fuel
    ∧ count_passes demo 20
        { rx_with [] (fun _ => []) with
          device_buffer := (read (Device.data [4, 0xAA, 2, 1, 7, 0xAA, 3, 1, 8, 9, 0xAA])
            (rx_with [] (fun _ => [])).device_buffer).2 } 0 ≤ 11 := by
  have h := loop_terminates_bounded demo (Device.data [4, 0xAA, 2, 1, 7, 0xAA, 3, 1, 8, 9, 0xAA])
    (rx_with [] (fun _ => [])) demo_finder_in_range
  exact ⟨h.1, h.2.2.1 20 0⟩

/-- C15: the bytes buffered after the read are the previous content followed by the
newly read bytes. When `process_serial_input` returns, the device buffer holds
exactly the bytes `Retains` gives for the bytes buffered after the read, and these
are fixed by the run of the finder: no other rest and no other last call satisfy
`Retains`. They are a suffix of the buffered bytes. When the loop ended because the
bytes were used up the device buffer is empty; when it ended by the `break`, the
last call of the finder was given the bytes `c` then buffered (a suffix of the
bytes buffered after the read), answered the empty range at offset `a`, and the
device buffer holds exactly `c.drop a`: nothing in front of that position is
retained and nothing after it is lost. It is also the rest of every run of
complete packets (`Extracts`) of the buffered bytes. The driver does return for a
finder that answers inside the range and channel numbers in `0..7`. -/
theorem device_buffer_keeps_rest (tag : Protocol) (d : Device) (rx : RxState) :
    (∃ fresh, view (read d rx.device_buffer).2 = view rx.device_buffer ++ fresh)
    ∧ (∀ mask rx1, process_serial_input tag d rx = Except.ok (mask, rx1) →
        ∃ last, Retains tag (view (read d rx.device_buffer).2) last (view rx1.device_buffer)
          ∧ (∀ last2 r2, Retains tag (view (read d rx.device_buffer).2) last2 r2 →
              last2 = last ∧ r2 = view rx1.device_buffer)
          ∧ view rx1.device_buffer <:+ view (read d rx.device_buffer).2
          ∧ (last = none → view rx1.device_buffer = [])
          ∧ (∀ (c : List Byte) (a : Nat), last = some (c, a) →
              c <:+ view (read d rx.device_buffer).2 ∧ c ≠ []
              ∧ tag.find_next_packet c = (a, a) ∧ view rx1.device_buffer = c.drop a)
          ∧ (∀ pkts r, Extracts tag (view (read d rx.device_buffer).2) pkts r →
              view rx1.device_buffer = r))
    ∧ (finder_in_range tag → (∀ pkt, tag.get_channel_number pkt < 8) →
        ∃ mask rx1, process_serial_input tag d rx = Except.ok (mask, rx1)) := by
  refine ⟨view_read d rx.device_buffer, ?_, process_serial_input_returns tag d rx⟩
  intro mask rx1 hret
  obtain ⟨rxl, hloop, hdev, _⟩ := process_serial_input_ok tag d rx mask rx1 hret
  have hview : view rx1.device_buffer = view rxl.device_buffer := by rw [hdev]; rfl
  obtain ⟨last, hr⟩ := process_loop_retains tag _ _ _ _ _ hloop
  have hr1 : Retains tag (view (read d rx.device_buffer).2) last (view rx1.device_buffer) := by
    rw [hview]; exact hr
  have huniq := retains_unique tag _ last _ hr1
  obtain ⟨hsuf, hnone, hsome⟩ := retains_last tag _ last _ hr1
  refine ⟨last, hr1, huniq, hsuf, hnone, hsome, ?_⟩
  intro pkts r hx
  obtain ⟨last2, hr2⟩ := extracts_retains tag _ pkts r hx
  exact ((huniq last2 r hr2).2).symm

theorem device_buffer_keeps_rest_witness :
    ∃ mask rx1,
      process_serial_input demo8 (Device.data [0xAA, 2, 1, 7, 9, 0xAA, 5])
          (rx_with [4] (fun _ => [])) = Except.ok (mask, rx1)
      ∧ view rx1.device_buffer = [0xAA, 5]
      ∧ Retains demo8 [4, 0xAA, 2, 1, 7, 9, 0xAA, 5] (some ([9, 0xAA, 5], 1)) [0xAA, 5] := by
  have h := device_buffer_keeps_rest demo8 (Device.data [0xAA, 2, 1, 7, 9, 0xAA, 5])
    (rx_with [4] (fun _ => []))
  obtain ⟨mask, rx1, hret⟩ := h.2.2 demo8_finder_in_range
    (fun pkt => Nat.mod_lt _ (by decide))
  obtain ⟨last, hr, huniq, _, _, _, hx⟩ := h.2.1 mask rx1 hret
  have hrest : view rx1.device_buffer = [0xAA, 5] :=
    hx [[0xAA, 2, 1, 7]] [0xAA, 5]
      (Extracts.packet [4, 0xAA, 2, 1, 7, 9, 0xAA, 5] 1 5 [] [0xAA, 5] (by decide) (by decide)
        (by decide) (Extracts.no_packet [9, 0xAA, 5] 1 (by decide) (by decide)))
  have hrun : Retains demo8 [4, 0xAA, 2, 1, 7, 9, 0xAA, 5] (some ([9, 0xAA, 5], 1)) [0xAA, 5] :=
    Retains.packet [4, 0xAA, 2, 1, 7, 9, 0xAA, 5] 1 5 _ _ (by decide) (by decide) (by decide)
      (Retains.no_packet [9, 0xAA, 5] 1 (by decide) (by decide))
  exact ⟨mask, rx1, hret, hrest, hrun⟩

/-- C16: a failed read does not abort processing. A read that fails returns a
negative result and leaves the device buffer as it was; it is reported through
`perror` unless the error is `EAGAIN`; the call produces the same result (receive
state and mask) as a call whose read delivers zero bytes. In particular the
complete packets `pkts` that the finder reports in the bytes already buffered are
extracted and routed: the mask is marked for each, the channels are those of
`route`, and the rest `r` is retained. -/
theorem failed_read_still_processes (tag : Protocol) (rx : RxState) (e : Nat) :
    (read (Device.failure e) rx.device_buffer).1 < 0
    ∧ (read (Device.failure e) rx.device_buffer).2 = rx.device_buffer
    ∧ (reports_read_error (Device.failure e) rx = true ↔ e ≠ EAGAIN)
    ∧ process_serial_input tag (Device.failure e) rx
        = process_serial_input tag (Device.data []) rx
    ∧ (∀ pkts r, Extracts tag (view rx.device_buffer) pkts r →
        (∀ pkt ∈ pkts, tag.get_channel_number pkt < 8) →
        ∃ rx1, process_serial_input tag (Device.failure e) rx
            = Except.ok (mark_all tag pkts 0, rx1)
          ∧ view rx1.device_buffer = r
          ∧ ((∀ pkt ∈ pkts, payload_inside tag pkt) →
              rx1.channel_buffer = route tag pkts rx.channel_buffer)) := by
  refine ⟨by simp [read], rfl, ?_, ?_, ?_⟩
  · simp [reports_read_error, read, errno_of]
  · unfold process_serial_input
    rw [read_failure_eq]
  · intro pkts r hx hch
    obtain ⟨rx1, hrun, hdev, hchan⟩ := process_serial_input_run tag (Device.failure e) rx
      pkts r hx hch
    exact ⟨rx1, hrun, by rw [hdev]; rfl, hchan⟩

theorem failed_read_still_processes_witness :
    process_serial_input demo (Device.failure 5) (rx_with [4, 0xAA, 2, 1, 7, 0xAA] (fun _ => []))
      = process_serial_input demo (Device.data []) (rx_with [4, 0xAA, 2, 1, 7, 0xAA] (fun _ => []))
    ∧ ∃ rx1, process_serial_input demo (Device.failure 5)
          (rx_with [4, 0xAA, 2, 1, 7, 0xAA] (fun _ => [])) = Except.ok (2, rx1)
        ∧ view rx1.device_buffer = [0xAA] := by
  have h := failed_read_still_processes demo (rx_with [4, 0xAA, 2, 1, 7, 0xAA] (fun _ => [])) 5
  obtain ⟨rx1, h1, h2, _⟩ := h.2.2.2.2 [[0xAA, 2, 1, 7]] [0xAA]
    (Extracts.packet [4, 0xAA, 2, 1, 7, 0xAA] 1 5 [] [0xAA] (by decide) (by decide) (by decide)
      (Extracts.no_packet [0xAA] 0 (by decide) (by decide)))
    (by decide)
  exact ⟨h.2.2.2.1, rx1, h1, h2⟩

/-- C17: frame of the driver and of the readers. When `process_serial_input`
returns, every channel whose bit is clear in the returned mask has the same buffer,
hence the same logical content, as before the call; `read_channel_raw` on `ch`
changes neither the device buffer nor a channel buffer other than `ch`, and
`read_service_channel` changes neither the device buffer nor a channel buffer
other than channel 0. -/
theorem frame_of_driver_and_readers (tag : Protocol) (d : Device) (rx : RxState)
    (ch : Fin 8) (n : Nat) :
    (∀ mask rx1, process_serial_input tag d rx = Except.ok (mask, rx1) →
      ∀ i : Fin 8, mask.testBit i.val = false →
        rx1.channel_buffer i = rx.channel_buffer i
        ∧ view (rx1.channel_buffer i) = view (rx.channel_buffer i))
    ∧ ((read_channel_raw rx ch n).rx.device_buffer = rx.device_buffer
      ∧ ∀ i, i ≠ ch → (read_channel_raw rx ch n).rx.channel_buffer i = rx.channel_buffer i)
    ∧ ((read_service_channel tag rx n).rx.device_buffer = rx.device_buffer
      ∧ ∀ i, i ≠ 0 → (read_service_channel tag rx n).rx.channel_buffer i
          = rx.channel_buffer i) := by
  refine ⟨?_, ⟨rfl, ?_⟩, ?_⟩
  · intro mask rx1 hret i hbit
    obtain ⟨rxl, hloop, _, hchan⟩ := process_serial_input_ok tag d rx mask rx1 hret
    have hsame : rxl.channel_buffer i = rx.channel_buffer i := by
      rcases process_loop_exit tag _ _ _ _ _ hloop with ⟨hr, _⟩ | ⟨rx2, hr, _, hstop⟩
      · exact (reaches_frame tag _ _ _ _ hr i).2 hbit
      · obtain ⟨_, _, _, hc⟩ := loop_body_stop_effect tag rx2 mask rxl hstop
        rw [hc]
        exact (reaches_frame tag _ _ _ _ hr i).2 hbit
    rw [hchan, hsame]
    exact ⟨rfl, rfl⟩
  · intro i hi
    simp [read_channel_raw, Function.update_noteq hi]
  · by_cases he : view (rx.channel_buffer 0) = []
    · rw [read_service_channel_of_empty tag rx n he]
      exact ⟨rfl, fun _ _ => rfl⟩
    · rw [read_service_channel_eq tag rx n _ _ he rfl]
      split
      · split
        · exact ⟨rfl, fun _ _ => rfl⟩
        · refine ⟨rfl, fun i hi => ?_⟩
          simp [Function.update_noteq hi]
      · exact ⟨rfl, fun _ _ => rfl⟩

theorem frame_of_driver_and_readers_witness :
    ∃ mask rx1,
      process_serial_input demo8 (Device.data [0xAA, 2, 1, 7, 9, 0xAA, 5])
          (rx_with [] (fun _ => [3])) = Except.ok (mask, rx1)
      ∧ view (rx1.channel_buffer 2) = [3]
      ∧ view (rx1.channel_buffer 1) = [3, 7] := by
  have h := frame_of_driver_and_readers demo8 (Device.data [0xAA, 2, 1, 7, 9, 0xAA, 5])
    (rx_with [] (fun _ => [3])) 0 0
  obtain ⟨rx1, hrun, _, hchan⟩ := process_serial_input_run demo8
    (Device.data [0xAA, 2, 1, 7, 9, 0xAA, 5]) (rx_with [] (fun _ => [3]))
    [[0xAA, 2, 1, 7]] [0xAA, 5]
    (Extracts.packet [0xAA, 2, 1, 7, 9, 0xAA, 5] 0 4 [] [0xAA, 5] (by decide) (by decide)
      (by decide) (Extracts.no_packet [9, 0xAA, 5] 1 (by decide) (by decide)))
    (by decide)
  refine ⟨_, rx1, hrun, (h.1 _ rx1 hrun 2 (by decide)).2, ?_⟩
  rw [hchan (by decide)]
  decide

end BT
